import Mathlib

/-!
Shallow embedding of the ts-graphlib core (Graph ADT, PriorityQueue, and the
algorithms topsort, isAcyclic, tarjan, findCycles, dijkstra/dijkstraAll,
floydWarshall, prim) for checking the natural-language specification.

Source of authority: the TypeScript sources under src/.  Where a file holds
several revisions of the same module, the embedding follows the revision that
the claims cite (the `class Graph` keyed by JS `Map`s, raising `NodeIdError`,
and the generic `class PriorityQueue<K>`).

Modelling conventions:
  * JS node ids are strings; `NodeId := String`.  JS `null`/`undefined` ids
    appear only at the validated entry point (`setNodeR`), as `Option String`.
  * A JS `Map` is an insertion-ordered association list (`AList`), a JS `Set`
    an insertion-ordered duplicate-free list.
  * JS numbers used by the algorithms are integers extended with `+Infinity`
    (`JNum`); only `+`, `<`, `>` on those values occur in the embedded code.
  * Node values and edge labels are `Option String` (`none` = `undefined`).
  * A method that can throw is embedded as a function returning the state it
    leaves behind paired with `Option GErr` (in the source every throw happens
    before the first mutation of the receiver, so the state component on the
    error path is the unchanged receiver), or as `Except` for pure queries.
-/

namespace TsGraphlib

/-- JS `Map`: insertion-ordered association list with unique keys
(uniqueness holds for every list built by `alSet`/`alDel` from `[]`). -/
abbrev AList (K V : Type) := List (K × V)

section AListOps

variable {K V : Type} [DecidableEq K]

/-- `Map.prototype.get` -/
def alGet : AList K V → K → Option V
  | [], _ => none
  | (k1, v1) :: t, k => if k1 = k then some v1 else alGet t k

/-- `Map.prototype.has` -/
def alHas (l : AList K V) (k : K) : Bool :=
  (alGet l k).isSome

/-- `Map.prototype.set`: update in place if the key exists, else append. -/
def alSet : AList K V → K → V → AList K V
  | [], k, v => [(k, v)]
  | (k1, v1) :: t, k, v =>
    if k1 = k then (k1, v) :: t else (k1, v1) :: alSet t k v

/-- `Map.prototype.delete` (unique keys, so filtering removes the entry). -/
def alDel (l : AList K V) (k : K) : AList K V :=
  l.filter (fun p => decide (p.1 ≠ k))

/-- `[...map.keys()]` -/
def alKeys (l : AList K V) : List K :=
  l.map Prod.fst

/-- `[...map.values()]` -/
def alValues (l : AList K V) : List V :=
  l.map Prod.snd

/-- JS `Set`: insertion-ordered duplicate-free list; `Set.prototype.add`. -/
def jsAdd (l : List K) (k : K) : List K :=
  if k ∈ l then l else l ++ [k]

/-- `Set.prototype.delete` -/
def jsDel (l : List K) (k : K) : List K :=
  l.filter (fun x => decide (x ≠ k))

end AListOps

/-- JS number restricted to the values the embedded algorithms compute with:
integers and `Number.POSITIVE_INFINITY`. -/
inductive JNum where
  | fin (n : Int) : JNum
  | inf : JNum
deriving DecidableEq, Repr

namespace JNum

/-- JS `+` on these values (`Infinity + x = Infinity`). -/
def add : JNum → JNum → JNum
  | fin a, fin b => fin (a + b)
  | _, _ => inf

instance : Add JNum := ⟨add⟩

/-- JS `<` on these values (`Infinity < Infinity` is false). -/
def lt : JNum → JNum → Bool
  | fin a, fin b => decide (a < b)
  | fin _, inf => true
  | inf, _ => false

end JNum

/-- Error outcomes: the distinguished `CycleException` of `topsort` versus
every other `Error`/`TypeError` (identified by message). -/
inductive GErr where
  | cycleException : GErr
  | error (msg : String) : GErr
deriving DecidableEq, Repr

/-- Equality of `Except` results is decidable (used by concrete witnesses). -/
instance {e a : Type} [DecidableEq e] [DecidableEq a] : DecidableEq (Except e a) :=
  fun x y =>
    match x, y with
    | .ok u, .ok v =>
      if h : u = v then isTrue (by rw [h])
      else isFalse (fun hh => h (by cases hh; rfl))
    | .error u, .error v =>
      if h : u = v then isTrue (by rw [h])
      else isFalse (fun hh => h (by cases hh; rfl))
    | .ok _, .error _ => isFalse (fun hh => Except.noConfusion hh)
    | .error _, .ok _ => isFalse (fun hh => Except.noConfusion hh)

/-- `const DEFAULT_EDGE_NAME = "\x00"` -/
def DEFAULT_EDGE_NAME : String := "\x00"

/-- `const GRAPH_NODE = "\x00"` (the synthetic compound-forest root). -/
def GRAPH_NODE : String := "\x00"

/-- `const EDGE_KEY_DELIM = "\x01"` -/
def EDGE_KEY_DELIM : String := "\x01"

/-- The `Edge` descriptor `{v, w, name?}` (the stored edge objects never carry
the optional `value` field, which only appears in JSON serialization). -/
structure Edge where
  v : String
  w : String
  name : Option String := none
deriving DecidableEq, Repr

/-- Lexicographic comparison of character lists by code point, the JS `<`
on strings (JS compares UTF-16 code units; for the scalar values stored in
Lean strings the induced order agrees wherever the repository uses it). -/
def charListLt : List Char → List Char → Bool
  | [], [] => false
  | [], _ :: _ => true
  | _ :: _, [] => false
  | a :: as, b :: bs =>
    if a.toNat < b.toNat then true
    else if b.toNat < a.toNat then false
    else charListLt as bs

/-- JS `v > w` on string ids is `jsStrLt w v`. -/
def jsStrLt (a b : String) : Bool := charListLt a.data b.data

/-- `edgeArgsToId(isDirected, v, w, name)`: the canonical edge-id string
`[v, w, name ?? DEFAULT_EDGE_NAME].join(EDGE_KEY_DELIM)`, with the pair
swapped on an undirected graph when `v > w` in the JS string order. -/
def edgeArgsToId (isDirected : Bool) (v w : String) (name : Option String) :
    String :=
  let p := if !isDirected && jsStrLt w v then (w, v) else (v, w)
  p.1 ++ EDGE_KEY_DELIM ++ p.2 ++ EDGE_KEY_DELIM ++ name.getD DEFAULT_EDGE_NAME

/-- `edgeArgsToObj`: the frozen descriptor stored for a new edge; the pair is
swapped exactly as in `edgeArgsToId`, and the `name` field is only set when
`name` is truthy (so the empty string is dropped, as in JS). -/
def edgeArgsToObj (isDirected : Bool) (v w : String) (name : Option String) :
    Edge :=
  let p := if !isDirected && jsStrLt w v then (w, v) else (v, w)
  { v := p.1, w := p.2,
    name := match name with
            | some s => if s = "" then none else some s
            | none => none }

/-- `edgeObjToId` -/
def edgeObjToId (isDirected : Bool) (e : Edge) : String :=
  edgeArgsToId isDirected e.v e.w e.name

/-- The `Graph` class state (fields in source order; maps keyed by JS `Map`s).
`parent_`/`children_` are only meaningful when `isCompound_` (the constructor
initialises them only then; every access is guarded by `isCompound_`). -/
structure Graph where
  isDirected_ : Bool
  isMultigraph_ : Bool
  isCompound_ : Bool
  label_ : Option String
  defaultNodeLabelFn : String → Option String
  defaultEdgeLabelFn : String → String → Option String → Option String
  nodes_ : AList String (Option String)
  parent_ : AList String String
  children_ : AList String (List String)
  inEdges_ : AList String (AList String Edge)
  preds_ : AList String (AList String Nat)
  outEdges_ : AList String (AList String Edge)
  sucs_ : AList String (AList String Nat)
  edgeObjs_ : AList String Edge
  edgeLabels_ : AList String (Option String)
  nodeCount_ : Int
  edgeCount_ : Int

namespace Graph

/-- `new Graph({directed, multigraph, compound})`. -/
def new (directed multigraph compound : Bool) : Graph where
  isDirected_ := directed
  isMultigraph_ := multigraph
  isCompound_ := compound
  label_ := none
  defaultNodeLabelFn := fun _ => none
  defaultEdgeLabelFn := fun _ _ _ => none
  nodes_ := []
  parent_ := []
  children_ := if compound then [(GRAPH_NODE, [])] else []
  inEdges_ := []
  preds_ := []
  outEdges_ := []
  sucs_ := []
  edgeObjs_ := []
  edgeLabels_ := []
  nodeCount_ := 0
  edgeCount_ := 0

/-- `isDirected()` -/
def isDirected (g : Graph) : Bool := g.isDirected_

/-- `isMultigraph()` -/
def isMultigraph (g : Graph) : Bool := g.isMultigraph_

/-- `isCompound()` -/
def isCompound (g : Graph) : Bool := g.isCompound_

/-- `nodeCount()` -/
def nodeCount (g : Graph) : Int := g.nodeCount_

/-- `edgeCount()` -/
def edgeCount (g : Graph) : Int := g.edgeCount_

/-- `nodes()` -/
def nodes (g : Graph) : List String := alKeys g.nodes_

/-- `hasNode(v)` -/
def hasNode (g : Graph) (v : String) : Bool := alHas g.nodes_ v

/-- `node(v)` -/
def node (g : Graph) (v : String) : Option (Option String) := alGet g.nodes_ v

/-- `edges()` -/
def edges (g : Graph) : List Edge := alValues g.edgeObjs_

/-- `sinks()`: nodes whose out-edge map is empty. -/
def sinks (g : Graph) : List String :=
  g.nodes.filter (fun v => ((alGet g.outEdges_ v).getD []).isEmpty)

/-- `sources()`: nodes whose in-edge map is empty. -/
def sources (g : Graph) : List String :=
  g.nodes.filter (fun v => ((alGet g.inEdges_ v).getD []).isEmpty)

/-- `predecessors(v)`: `undefined` when `v` is not in the graph. -/
def predecessors (g : Graph) (v : String) : Option (List String) :=
  (alGet g.preds_ v).map alKeys

/-- `successors(v)`: `undefined` when `v` is not in the graph. -/
def successors (g : Graph) (v : String) : Option (List String) :=
  (alGet g.sucs_ v).map alKeys

/-- `edge(v, w, name)` -/
def edge (g : Graph) (v w : String) (name : Option String) :
    Option (Option String) :=
  alGet g.edgeLabels_ (edgeArgsToId g.isDirected_ v w name)

/-- `hasEdge(v, w, name)` -/
def hasEdge (g : Graph) (v w : String) (name : Option String) : Bool :=
  alHas g.edgeLabels_ (edgeArgsToId g.isDirected_ v w name)

/-- `parent(v)`: the public accessor, hiding the `GRAPH_NODE` sentinel. -/
def parent (g : Graph) (v : String) : Option String :=
  if g.isCompound_ then
    match alGet g.parent_ v with
    | some p => if p = GRAPH_NODE then none else some p
    | none => none
  else none

/-- `children(v)` for a compound graph (`undefined` when `v` unknown). -/
def children (g : Graph) (v : String) : Option (List String) :=
  if g.isCompound_ then alGet g.children_ v
  else if v = GRAPH_NODE then some g.nodes
  else if g.hasNode v then some [] else none

/-- `incrementOrInitEntry(map, k)` (a zero entry counts as absent, as in JS
truthiness). -/
def incrementOrInitEntry (m : AList String Nat) (k : String) :
    AList String Nat :=
  match alGet m k with
  | some n => if n = 0 then alSet m k 1 else alSet m k (n + 1)
  | none => alSet m k 1

/-- `decrementOrRemoveEntry(map, k)`: decrement and delete the entry when the
count reaches zero.  With an absent key JS stores `NaN` and deletes it again,
so the net effect is no entry. -/
def decrementOrRemoveEntry (m : AList String Nat) (k : String) :
    AList String Nat :=
  match alGet m k with
  | some n => if n = 1 then alDel m k else alSet m k (n - 1)
  | none => alDel m k

/-- `setNode(v, value?)` after the id validation (all internal callers pass a
real id).  `value = none` models a call without a value argument. -/
def setNode (g : Graph) (v : String) (value : Option (Option String)) :
    Graph :=
  if alHas g.nodes_ v then
    match value with
    | some l => { g with nodes_ := alSet g.nodes_ v l }
    | none => g
  else
    { g with
      nodes_ := alSet g.nodes_ v (value.getD (g.defaultNodeLabelFn v))
      parent_ := if g.isCompound_ then alSet g.parent_ v GRAPH_NODE
                 else g.parent_
      children_ :=
        if g.isCompound_ then
          let c := alSet g.children_ v []
          alSet c GRAPH_NODE (jsAdd ((alGet c GRAPH_NODE).getD []) v)
        else g.children_
      inEdges_ := alSet g.inEdges_ v []
      preds_ := alSet g.preds_ v []
      outEdges_ := alSet g.outEdges_ v []
      sucs_ := alSet g.sucs_ v []
      nodeCount_ := g.nodeCount_ + 1 }

/-- `setNode` as called by a user: throws `NodeIdError` on a `null`/`undefined`
id before touching any state. -/
def setNodeR (g : Graph) (v : Option String) (value : Option (Option String)) :
    Graph × Option GErr :=
  match v with
  | none => (g, some (.error "Node IDs cannot be null or undefined"))
  | some v => (g.setNode v value, none)

/-- `setNodes(vs, value?)`. -/
def setNodes (g : Graph) (vs : List String) (value : Option (Option String)) :
    Graph :=
  vs.foldl (fun c v => c.setNode v value) g

/-- The body of `removeEdge` once the descriptor's id `e` is known. -/
def removeEdgeId (g : Graph) (e : String) : Graph :=
  match alGet g.edgeObjs_ e with
  | some edge =>
    { g with
      edgeLabels_ := alDel g.edgeLabels_ e
      edgeObjs_ := alDel g.edgeObjs_ e
      preds_ := alSet g.preds_ edge.w
        (decrementOrRemoveEntry ((alGet g.preds_ edge.w).getD []) edge.v)
      sucs_ := alSet g.sucs_ edge.v
        (decrementOrRemoveEntry ((alGet g.sucs_ edge.v).getD []) edge.w)
      inEdges_ := alSet g.inEdges_ edge.w
        (alDel ((alGet g.inEdges_ edge.w).getD []) e)
      outEdges_ := alSet g.outEdges_ edge.v
        (alDel ((alGet g.outEdges_ edge.v).getD []) e)
      edgeCount_ := g.edgeCount_ - 1 }
  | none => g

/-- `removeEdge(v, w, name)`. -/
def removeEdge (g : Graph) (v w : String) (name : Option String) : Graph :=
  g.removeEdgeId (edgeArgsToId g.isDirected_ v w name)

/-- `removeEdge(edgeObj)`. -/
def removeEdgeObj (g : Graph) (e : Edge) : Graph :=
  g.removeEdgeId (edgeObjToId g.isDirected_ e)

/-- `setEdge(v, w, value?, name?)`.  The only throw (a new named edge on a
non-multigraph) happens before the first mutation, so the state returned on
the error path is the unchanged receiver. -/
def setEdgeR (g : Graph) (v w : String) (value : Option (Option String))
    (name : Option String) : Graph × Option GErr :=
  let e := edgeArgsToId g.isDirected_ v w name
  if alHas g.edgeLabels_ e then
    match value with
    | some l => ({ g with edgeLabels_ := alSet g.edgeLabels_ e l }, none)
    | none => (g, none)
  else if name.isSome && !g.isMultigraph_ then
    (g, some (.error "Cannot set a named edge when isMultigraph = false"))
  else
    let g1 := (g.setNode v none).setNode w none
    let g2 := { g1 with
      edgeLabels_ := alSet g1.edgeLabels_ e
        (value.getD (g.defaultEdgeLabelFn v w name)) }
    let eo := edgeArgsToObj g.isDirected_ v w name
    ({ g2 with
       edgeObjs_ := alSet g2.edgeObjs_ e eo
       preds_ := alSet g2.preds_ eo.w
         (incrementOrInitEntry ((alGet g2.preds_ eo.w).getD []) eo.v)
       sucs_ := alSet g2.sucs_ eo.v
         (incrementOrInitEntry ((alGet g2.sucs_ eo.v).getD []) eo.w)
       inEdges_ := alSet g2.inEdges_ eo.w
         (alSet ((alGet g2.inEdges_ eo.w).getD []) e eo)
       outEdges_ := alSet g2.outEdges_ eo.v
         (alSet ((alGet g2.outEdges_ eo.v).getD []) e eo)
       edgeCount_ := g2.edgeCount_ + 1 }, none)

/-- `setEdge(edgeObj, value)` (the two-argument descriptor overload, which
always specifies the value). -/
def setEdgeObjR (g : Graph) (e : Edge) (value : Option String) :
    Graph × Option GErr :=
  g.setEdgeR e.v e.w (some value) e.name

/-- The `while (ancestor !== undefined)` walk of `setParent`, checking that
`parent` is not a descendant-chain ancestor equal to `v`.  The walk follows
`parent()` links; the fuel (strictly more than the number of parent entries)
is an embedding device only: on every state whose compound forest is a forest
the walk stops well before the fuel runs out, and a cyclic forest would make
the JS loop diverge (fuel exhaustion is mapped to an error). -/
def ancestorCheck (g : Graph) (v : String) : String → Nat → Option GErr
  | _, 0 => some (.error "model: ancestor walk did not terminate")
  | anc, fuel + 1 =>
    if anc = v then
      some (.error "Setting parent would create a cycle")
    else
      match g.parent anc with
      | none => none
      | some a => ancestorCheck g v a fuel

/-- `_removeFromParentsChildList(v)`: delete `v` from its parent's child set.
(When `v` has no parent entry the JS code would fault; every node of a
compound graph has one, so the embedding makes it a no-op.) -/
def removeFromParentsChildList (g : Graph) (v : String) : Graph :=
  match alGet g.parent_ v with
  | some p =>
    match alGet g.children_ p with
    | some cs => { g with children_ := alSet g.children_ p (jsDel cs v) }
    | none => g
  | none => g

/-- `setParent(v, p?)`.  Both throws (non-compound graph; compound-forest
cycle) happen before the first mutation. -/
def setParentR (g : Graph) (v : String) (p : Option String) :
    Graph × Option GErr :=
  if !g.isCompound_ then
    (g, some (.error "Cannot set parent in a non-compound graph"))
  else
    match p with
    | none =>
      let g1 := g.setNode v none
      let g2 := g1.removeFromParentsChildList v
      ({ g2 with
         parent_ := alSet g2.parent_ v GRAPH_NODE
         children_ := alSet g2.children_ GRAPH_NODE
           (jsAdd ((alGet g2.children_ GRAPH_NODE).getD []) v) }, none)
    | some pr =>
      match ancestorCheck g v pr (g.parent_.length + 1) with
      | some err => (g, some err)
      | none =>
        let g1 := (g.setNode pr none).setNode v none
        let g2 := g1.removeFromParentsChildList v
        ({ g2 with
           parent_ := alSet g2.parent_ v pr
           children_ := alSet g2.children_ pr
             (jsAdd ((alGet g2.children_ pr).getD []) v) }, none)

/-- The compound block of `removeNode(v)`: drop `v` from its parent\'s child
set, delete its parent entry, re-parent each of its children to the root
(`setParent(child)` with no second argument), and delete its child set. -/
def removeNodeChildren (g : Graph) (v : String) : Graph :=
  if g.isCompound_ then
    let ga := g.removeFromParentsChildList v
    let gb := { ga with parent_ := alDel ga.parent_ v }
    let cs := (alGet gb.children_ v).getD []
    let gc := cs.foldl (fun c child => (c.setParentR child none).1) gb
    { gc with children_ := alDel gc.children_ v }
  else g

/-- The edge-removal loops of `removeNode`: remove the edge object stored
under each id (`removeEdge(this._edgeObjs.definedGet(e))`). -/
def removeIncidentEdges (g : Graph) (ks : List String) : Graph :=
  ks.foldl
    (fun c e =>
      match alGet c.edgeObjs_ e with
      | some eo => c.removeEdgeObj eo
      | none => c) g

/-- The in-edge half of `removeNode`: remove the edges of the in-edge map of
`v`, then delete its in-edge and predecessor entries. -/
def removeInPart (g2 : Graph) (v : String) : Graph :=
  let g3 := g2.removeIncidentEdges (alKeys ((alGet g2.inEdges_ v).getD []))
  { g3 with inEdges_ := alDel g3.inEdges_ v
            preds_ := alDel g3.preds_ v }

/-- The out-edge half of `removeNode`, which also decrements the node
count. -/
def removeOutPart (g4 : Graph) (v : String) : Graph :=
  let g5 := g4.removeIncidentEdges (alKeys ((alGet g4.outEdges_ v).getD []))
  { g5 with outEdges_ := alDel g5.outEdges_ v
            sucs_ := alDel g5.sucs_ v
            nodeCount_ := g5.nodeCount_ - 1 }

/-- `removeNode(v)`: no-op when absent; otherwise delete the node, reparent
its children to the root (compound graphs), and remove every incident
edge. -/
def removeNode (g : Graph) (v : String) : Graph :=
  if alHas g.nodes_ v then
    removeOutPart
      (removeInPart
        (removeNodeChildren { g with nodes_ := alDel g.nodes_ v } v) v) v
  else g

/-- `setPath(vs, value?)`: `vs.reduce` chaining `setEdge` over consecutive
pairs; `reduce` on an empty array without an initial value throws. -/
def setPathGo (g : Graph) (v : String) (rest : List String)
    (value : Option (Option String)) : Graph × Option GErr :=
  match rest with
  | [] => (g, none)
  | w :: rest =>
    match g.setEdgeR v w value none with
    | (g', none) => setPathGo g' w rest value
    | (g', some e) => (g', some e)

/-- `setPath(vs, value?)`. -/
def setPathR (g : Graph) (vs : List String) (value : Option (Option String)) :
    Graph × Option GErr :=
  match vs with
  | [] => (g, some (.error "TypeError: Reduce of empty array with no initial value"))
  | v :: rest => setPathGo g v rest value

/-- `filterNodes`'s inner `findParent`, without the (semantically transparent)
memo table; the fuel bounds the parent-chain walk exactly as in
`ancestorCheck`. -/
def findParent (g copy : Graph) : Nat → String → Option String
  | 0, _ => none
  | fuel + 1, v =>
    match g.parent v with
    | none => none
    | some p => if copy.hasNode p then some p else findParent g copy fuel p

/-- Fold a fallible mutation over a list, propagating the first throw. -/
def foldE (f : Graph → α → Graph × Option GErr) : List α → Graph →
    Graph × Option GErr
  | [], c => (c, none)
  | x :: xs, c =>
    match f c x with
    | (c', none) => foldE f xs c'
    | (c', some e) => (c', some e)

/-- `filterNodes(filter)`: build a copy with the same flags, the surviving
nodes and their values, the edges between survivors, and (when compound)
parents promoted to the nearest surviving ancestor.  `filterNodes` never
mutates the receiver; if an inner call throws, the exception propagates and
the caller keeps the unchanged receiver, which is what the error branch
returns. -/
def filterNodesR (g : Graph) (pred : String → Bool) : Graph × Option GErr :=
  let copy0 := { Graph.new g.isDirected_ g.isMultigraph_ g.isCompound_ with
                 label_ := g.label_ }
  let copy1 := g.nodes_.foldl
    (fun c p => if pred p.1 then c.setNode p.1 (some p.2) else c) copy0
  match foldE
      (fun c e =>
        if c.hasNode e.v && c.hasNode e.w then
          c.setEdgeObjR e ((alGet g.edgeLabels_
            (edgeObjToId g.isDirected_ e)).getD none)
        else (c, none))
      (alValues g.edgeObjs_) copy1 with
  | (_, some err) => (g, some err)
  | (copy2, none) =>
    if g.isCompound_ then
      match foldE
          (fun c v => c.setParentR v (findParent g c (g.parent_.length + 1) v))
          copy2.nodes copy2 with
      | (copy3, none) => (copy3, none)
      | (_, some err) => (g, some err)
    else (copy2, none)

/-- `inEdges(v)` (no second-endpoint filter; `undefined` when `v` unknown). -/
def inEdges (g : Graph) (v : String) : Option (List Edge) :=
  (alGet g.inEdges_ v).map alValues

/-- `outEdges(v)` (no second-endpoint filter; `undefined` when `v` unknown). -/
def outEdges (g : Graph) (v : String) : Option (List Edge) :=
  (alGet g.outEdges_ v).map alValues

/-- `nodeEdges(v)`: in-edges then out-edges, `undefined` when `v` unknown. -/
def nodeEdges (g : Graph) (v : String) : Option (List Edge) :=
  (g.inEdges v).map (fun l => l ++ ((g.outEdges v).getD []))

end Graph

/-- One heap slot `{key, priority}` of the `PriorityQueue` (keys are node
ids in every use of the queue). -/
structure QueueKey where
  key : String
  priority : JNum
deriving DecidableEq, Repr

/-- The `PriorityQueue` state: the backing array and the key-to-index map. -/
structure PriorityQueue where
  queue : List QueueKey
  keyIndices : AList String Nat
deriving Repr

namespace PriorityQueue

/-- The empty queue (`new PriorityQueue()`). -/
def empty : PriorityQueue := ⟨[], []⟩

/-- `size()` -/
def size (pq : PriorityQueue) : Nat := pq.queue.length

/-- `has(key)` -/
def has (pq : PriorityQueue) (key : String) : Bool :=
  alHas pq.keyIndices key

/-- `priority(key)`: `undefined` when the key is absent. -/
def priority (pq : PriorityQueue) (key : String) : Option JNum :=
  (alGet pq.keyIndices key).bind fun i => (pq.queue.get? i).map (·.priority)

/-- `min()`: throws `Queue underflow` on an empty queue. -/
def min (pq : PriorityQueue) : Except GErr String :=
  match pq.queue with
  | [] => .error (.error "Queue underflow")
  | q :: _ => .ok q.key

/-- `_swap(i, j)` for indices inside the array (the one out-of-range call,
`_swap(0, -1)` from `removeMin` on an empty queue, is handled at its call
site, where it faults). -/
def pqSwap (pq : PriorityQueue) (i j : Nat) : PriorityQueue :=
  match pq.queue.get? i, pq.queue.get? j with
  | some qi, some qj =>
    { queue := (pq.queue.set i qj).set j qi
      keyIndices := alSet (alSet pq.keyIndices qj.key i) qi.key j }
  | _, _ => pq

/-- `_heapify(i)` (sift down).  The recursion index strictly increases and is
bounded by the array length, so the fuel `length + 1` never runs out. -/
def pqHeapifyGo (pq : PriorityQueue) (i : Nat) : Nat → PriorityQueue
  | 0 => pq
  | fuel + 1 =>
    let arr := pq.queue
    let l := 2 * i
    let r := l + 1
    if l < arr.length then
      let largest :=
        match arr.get? l, arr.get? i with
        | some ql, some qi => if JNum.lt ql.priority qi.priority then l else i
        | _, _ => i
      let largest :=
        if r < arr.length then
          match arr.get? r, arr.get? largest with
          | some qr, some qL =>
            if JNum.lt qr.priority qL.priority then r else largest
          | _, _ => largest
        else largest
      if largest ≠ i then pqHeapifyGo (pqSwap pq i largest) largest fuel
      else pq
    else pq

/-- `_heapify(i)` -/
def pqHeapify (pq : PriorityQueue) (i : Nat) : PriorityQueue :=
  pqHeapifyGo pq i (pq.queue.length + 1)

/-- `_decrease(index)` (sift up).  The loop variable halves each iteration,
so fuel `index + 1` never runs out; structural fuel keeps the definition
kernel-computable. -/
def pqSiftUpGo (priority : JNum) : Nat → PriorityQueue → Nat → PriorityQueue
  | 0, pq, _ => pq
  | fuel + 1, pq, index =>
    if index = 0 then pq
    else
      match pq.queue.get? (index / 2) with
      | some qp =>
        if JNum.lt qp.priority priority then pq
        else pqSiftUpGo priority fuel (pqSwap pq index (index / 2)) (index / 2)
      | none => pq

/-- `_decrease(index)` -/
def pqSiftUp (pq : PriorityQueue) (priority : JNum) (index : Nat) :
    PriorityQueue :=
  pqSiftUpGo priority (index + 1) pq index

/-- `add(key, priority)`: `false` and no change when the key already exists. -/
def add (pq : PriorityQueue) (key : String) (priority : JNum) :
    PriorityQueue × Bool :=
  if alHas pq.keyIndices key then (pq, false)
  else
    let index := pq.queue.length
    let pq1 : PriorityQueue :=
      { queue := pq.queue ++ [⟨key, priority⟩]
        keyIndices := alSet pq.keyIndices key index }
    (pqSiftUp pq1 priority index, true)

/-- `removeMin()`.  On an empty queue the source has no guard: `_swap(0, -1)`
assigns `queue[0] = undefined` and then reads `queue[0].key`, so the call
fails with a `TypeError` and returns no key. -/
def removeMin (pq : PriorityQueue) : Except GErr (String × PriorityQueue) :=
  match pq.queue with
  | [] => .error (.error "TypeError: cannot read key of undefined")
  | _ :: _ =>
    let pq1 := pqSwap pq 0 (pq.queue.length - 1)
    match pq1.queue.getLast? with
    | some m =>
      let pq2 : PriorityQueue :=
        { queue := pq1.queue.dropLast
          keyIndices := alDel pq1.keyIndices m.key }
      .ok (m.key, pqHeapify pq2 0)
    | none => .error (.error "TypeError: cannot read key of undefined")

/-- `decrease(key, priority)`: throws when the new priority is greater than
the current one; an absent key faults on `queue[undefined].priority`. -/
def decrease (pq : PriorityQueue) (key : String) (priority : JNum) :
    Except GErr PriorityQueue :=
  match alGet pq.keyIndices key with
  | none => .error (.error "TypeError: cannot read priority of undefined")
  | some index =>
    match pq.queue.get? index with
    | none => .error (.error "TypeError: cannot read priority of undefined")
    | some q =>
      if JNum.lt q.priority priority then
        .error (.error "New priority is greater than current priority")
      else
        let pq1 : PriorityQueue :=
          { pq with queue := pq.queue.set index ({ q with priority := priority }) }
        .ok (pqSiftUp pq1 priority index)

end PriorityQueue

/-- One entry `{distance, predecessor?}` of a dijkstra/floydWarshall result. -/
structure DPath where
  distance : JNum
  predecessor : Option String := none
deriving DecidableEq, Repr

/-- `PathMap`: target node to `{distance, predecessor?}`. -/
abbrev PathMap := AList String DPath

/-- `runDijkstra`'s `updateNeighbors(edge)` for the extracted node `v` whose
entry distance is `vDist`: throws on a negative weight, otherwise relaxes
`w`'s entry and decreases its queue priority when a shorter path is found. -/
def dijkstraUpdate (wf : Edge → Int) (v : String) (vDist : JNum)
    (st : PathMap × PriorityQueue) (edge : Edge) :
    Except GErr (PathMap × PriorityQueue) :=
  let w := if edge.v ≠ v then edge.v else edge.w
  let weight := wf edge
  let distance := vDist + JNum.fin weight
  if weight < 0 then
    .error (.error "dijkstra does not allow negative edge weights")
  else
    match alGet st.1 w with
    | none => .error (.error "TypeError: cannot read distance of undefined")
    | some wEntry =>
      if JNum.lt distance wEntry.distance then
        (st.2.decrease w distance).map
          (fun pq' => (alSet st.1 w ⟨distance, some v⟩, pq'))
      else .ok st

/-- The `while (pq.size() > 0)` loop of `runDijkstra`.  Each iteration removes
one key and `decrease` preserves the queue length, so fuel equal to the
initial size never runs out. -/
def dijkstraGo (wf : Edge → Int) (ef : String → Option (List Edge)) :
    Nat → PathMap → PriorityQueue → Except GErr PathMap
  | 0, results, pq =>
    if pq.size = 0 then .ok results
    else .error (.error "model: dijkstra fuel exhausted")
  | fuel + 1, results, pq =>
    if pq.size = 0 then .ok results
    else
      match pq.removeMin with
      | .error e => .error e
      | .ok (v, pq1) =>
        match alGet results v with
        | none => .error (.error "TypeError: cannot read distance of undefined")
        | some vEntry =>
          if vEntry.distance = JNum.inf then .ok results
          else
            match ((ef v).getD []).foldlM
                (dijkstraUpdate wf v vEntry.distance) (results, pq1) with
            | .error e => .error e
            | .ok st => dijkstraGo wf ef fuel st.1 st.2

/-- `runDijkstra(g, source, weightFn, edgeFn)`. -/
def runDijkstra (g : Graph) (source : String) (wf : Edge → Int)
    (ef : String → Option (List Edge)) : Except GErr PathMap :=
  let init := g.nodes.foldl
    (fun (st : PathMap × PriorityQueue) v_ =>
      let d := if v_ = source then JNum.fin 0 else JNum.inf
      (alSet st.1 v_ ⟨d, none⟩, (st.2.add v_ d).1))
    ([], PriorityQueue.empty)
  dijkstraGo wf ef init.2.size init.1 init.2

/-- `dijkstra(g, source, weightFn)` with the default `edgeFn = g.outEdges`. -/
def dijkstra (g : Graph) (source : String) (wf : Edge → Int) :
    Except GErr PathMap :=
  runDijkstra g source wf (fun v => g.outEdges v)

/-- `dijkstraAll(g, weightFn)`: one dijkstra run per node, any throw
propagating out. -/
def dijkstraAll (g : Graph) (wf : Edge → Int) :
    Except GErr (AList String PathMap) :=
  g.nodes.foldlM (fun acc v => (dijkstra g v wf).map (alSet acc v)) []

/-- The initialisation rows of `runFloydWarshall`: `0` on the diagonal,
`+Infinity` elsewhere, then the direct-edge distances from `edgeFn(v)`. -/
def fwInit (g : Graph) (wf : Edge → Int) (ef : String → List Edge) :
    AList String PathMap :=
  g.nodes.foldl
    (fun res v =>
      let row : PathMap := [(v, ⟨JNum.fin 0, none⟩)]
      let row := g.nodes.foldl
        (fun r w => if v ≠ w then alSet r w ⟨JNum.inf, none⟩ else r) row
      let row := (ef v).foldl
        (fun r edge =>
          let w := if edge.v = v then edge.w else edge.v
          alSet r w ⟨JNum.fin (wf edge), some v⟩) row
      alSet res v row)
    []

/-- The triple `(k, i, j)` relaxation loop of `runFloydWarshall`; the JS rows
are live references, which the threaded-state reads reproduce. -/
def fwRelax (ns : List String) (results : AList String PathMap) :
    AList String PathMap :=
  ns.foldl
    (fun res k =>
      ns.foldl
        (fun res i =>
          ns.foldl
            (fun res j =>
              let dflt : DPath := ⟨JNum.inf, none⟩
              let ik := (alGet ((alGet res i).getD []) k).getD dflt
              let kj := (alGet ((alGet res k).getD []) j).getD dflt
              let ij := (alGet ((alGet res i).getD []) j).getD dflt
              let alt := ik.distance + kj.distance
              if JNum.lt alt ij.distance then
                alSet res i
                  (alSet ((alGet res i).getD []) j ⟨alt, kj.predecessor⟩)
              else res)
            res)
        res)
    results

/-- `floydWarshall(g, weightFn)` with the default `edgeFn = g.outEdges`
(cast to `Edge[]`, defined for every node). -/
def floydWarshall (g : Graph) (wf : Edge → Int) : AList String PathMap :=
  fwRelax g.nodes (fwInit g wf (fun v => (g.outEdges v).getD []))

/-- `prim`'s `updateNeighbors(edge)` for the extracted node `v`: when the
other endpoint is still queued and the edge is lighter than its priority,
record `v` as its candidate parent and decrease its priority. -/
def primUpdate (wf : Edge → Int) (v : String)
    (st : AList String String × PriorityQueue) (edge : Edge) :
    Except GErr (AList String String × PriorityQueue) :=
  let w := if edge.v = v then edge.w else edge.v
  match st.2.priority w with
  | none => .ok st
  | some pri =>
    let edgeWeight := wf edge
    if JNum.lt (JNum.fin edgeWeight) pri then
      (st.2.decrease w (JNum.fin edgeWeight)).map
        (fun pq' => (alSet st.1 w v, pq'))
    else .ok st

/-- The `while (pq.size() > 0)` loop of `prim` (fuel as in `dijkstraGo`).
`init` records whether the start node has already been extracted; a second
parentless extraction means the input graph is not connected. -/
def primGo (g : Graph) (wf : Edge → Int) :
    Nat → Bool → Graph → AList String String → PriorityQueue →
    Except GErr Graph
  | 0, _, result, _, pq =>
    if pq.size = 0 then .ok result
    else .error (.error "model: prim fuel exhausted")
  | fuel + 1, init, result, parents, pq =>
    if pq.size = 0 then .ok result
    else
      match pq.removeMin with
      | .error e => .error e
      | .ok (v, pq1) =>
        let step : Except GErr (Bool × Graph) :=
          match alGet parents v with
          | some p =>
            match result.setEdgeR v p none none with
            | (r', none) => .ok (init, r')
            | (_, some e) => .error e
          | none =>
            if init then .error (.error "Input graph is not connected")
            else .ok (true, result)
        match step with
        | .error e => .error e
        | .ok (init', result') =>
          match ((g.nodeEdges v).getD []).foldlM (primUpdate wf v)
              (parents, pq1) with
          | .error e => .error e
          | .ok st => primGo g wf fuel init' result' st.1 st.2

/-- `prim(g, weightFunc)`: empty result for an empty input; otherwise seed the
queue with every node at `+Infinity`, start the first node at `0`, and run
the extraction loop over a fresh `new Graph()` result. -/
def prim (g : Graph) (wf : Edge → Int) : Except GErr Graph :=
  let result := Graph.new true false false
  if g.nodeCount_ = 0 then .ok result
  else
    let seeded := g.nodes.foldl
      (fun (st : Graph × PriorityQueue) v_ =>
        ((st.1.setNode v_ none), (st.2.add v_ JNum.inf).1))
      (result, PriorityQueue.empty)
    match g.nodes with
    | [] => .error (.error "TypeError: cannot read priority of undefined")
    | v0 :: _ =>
      match seeded.2.decrease v0 (JNum.fin 0) with
      | .error e => .error e
      | .ok pq => primGo g wf (pq.size + 1) false seeded.1 [] pq

/-- One `visited[v]` record of `tarjan`. -/
structure TarjanEntry where
  onStack : Bool
  lowlink : Nat
  index : Nat
deriving DecidableEq, Repr

/-- The mutable state of `tarjan`. -/
structure TarjanState where
  index : Nat
  stack : List String
  visited : AList String TarjanEntry
  results : List (List String)
deriving Repr

/-- The `do { w = stack.pop(); ... } while (v !== w)` component-popping loop
of `tarjan` (stack top first; fuel bounded by the stack length). -/
def tarjanPopGo (v : String) : Nat → TarjanState → List String → TarjanState
  | 0, st, cmpt => { st with results := st.results ++ [cmpt] }
  | fuel + 1, st, cmpt =>
    match st.stack with
    | [] => { st with results := st.results ++ [cmpt] }
    | w :: rest =>
      let st1 : TarjanState :=
        { st with
          stack := rest
          visited :=
            match alGet st.visited w with
            | some e => alSet st.visited w ({ e with onStack := false })
            | none => st.visited }
      let cmpt1 := cmpt ++ [w]
      if v = w then { st1 with results := st1.results ++ [cmpt1] }
      else tarjanPopGo v fuel st1 cmpt1

/-- `tarjan`'s recursive `dfs(v)`.  Each call marks a previously unvisited
node, so fuel strictly greater than the node count never runs out on a graph
whose successor lists stay inside the node set. -/
def tarjanDfs (g : Graph) : Nat → String → TarjanState → TarjanState
  | 0, _, st => st
  | fuel + 1, v, st =>
    let idx := st.index
    let st : TarjanState :=
      { st with
        visited := alSet st.visited v ⟨true, idx, idx⟩
        index := st.index + 1
        stack := v :: st.stack }
    let st := ((g.successors v).getD []).foldl
      (fun s w =>
        match alGet s.visited w with
        | none =>
          let s1 := tarjanDfs g fuel w s
          match alGet s1.visited v, alGet s1.visited w with
          | some ev, some ew =>
            let ev2 : TarjanEntry :=
              { ev with lowlink := Min.min ev.lowlink ew.lowlink }
            { s1 with visited := alSet s1.visited v ev2 }
          | _, _ => s1
        | some ew =>
          if ew.onStack then
            match alGet s.visited v with
            | some ev =>
              let ev2 : TarjanEntry :=
                { ev with lowlink := Min.min ev.lowlink ew.index }
              { s with visited := alSet s.visited v ev2 }
            | none => s
          else s)
      st
    match alGet st.visited v with
    | some ev =>
      if ev.lowlink = ev.index then tarjanPopGo v (st.stack.length + 1) st []
      else st
    | none => st

/-- `tarjan(g)`: run `dfs` from every not-yet-visited node. -/
def tarjan (g : Graph) : List (List String) :=
  (g.nodes.foldl
    (fun st v =>
      if alHas st.visited v then st
      else tarjanDfs g (g.nodes.length + 1) v st)
    ⟨0, [], [], []⟩).results

/-- `findCycles(g)`: tarjan components of size above one, or singletons with a
self-loop (`g.hasEdge(cmpt[0], cmpt[0])`). -/
def findCycles (g : Graph) : List (List String) :=
  (tarjan g).filter
    (fun cmpt =>
      decide (cmpt.length > 1) ||
        (match cmpt with
         | [c] => g.hasEdge c c none
         | _ => false))

/-- The predecessor worklist `g.predecessors(node) ?? []` that `topsort`'s
`visit` recurses over (the optional chain skips an unknown node). -/
def predsOf (g : Graph) (v : String) : List String :=
  (g.predecessors v).getD []

/-- The mutable state of `topsort`: the `visited` and on-`stack` sets (most
recently inserted first) and the accumulated `results` list. -/
structure TS where
  visited : List String
  stack : List String
  results : List String
deriving DecidableEq, Repr

/-- `topsort`'s recursive `visit`, folded over a worklist (the source's
`forEach`): a node already on `stack` raises the `CycleException`; a visited
node is skipped; otherwise the node joins `stack` and `visited`, its
predecessors are visited, then it leaves `stack` and is pushed onto
`results`.  One unit of fuel per call keeps the recursion structural (hence
kernel-computable); `tsFuel` below is proved sufficient, so the fuel error is
dead code on every run `topsort` actually starts. -/
def tsVisit (g : Graph) : Nat → List String → TS → Except GErr TS
  | 0, _, _ => .error (.error "model: topsort fuel exhausted")
  | _ + 1, [], st => .ok st
  | fuel + 1, x :: xs, st =>
    if x ∈ st.stack then .error .cycleException
    else if x ∈ st.visited then tsVisit g fuel xs st
    else
      match tsVisit g fuel (predsOf g x)
          ⟨x :: st.visited, x :: st.stack, st.results⟩ with
      | .error e => .error e
      | .ok st2 => tsVisit g fuel xs
          ⟨st2.visited, jsDel st2.stack x, st2.results ++ [x]⟩

/-- The calls still to be paid for by fuel: one per worklist entry of every
node not yet visited, plus one for the visit itself. -/
def tsWork (g : Graph) (visited : List String) : Nat :=
  ((g.nodes.filter (fun x => decide (x ∉ visited))).map
    (fun x => 1 + (predsOf g x).length)).sum

/-- Fuel sufficient for the whole `topsort` traversal. -/
def tsFuel (g : Graph) : Nat :=
  g.sinks.length + tsWork g [] + 1

/-- `topsort(g)`: visit from every sink, then raise the `CycleException`
when the visited count differs from the node count, else return `results`. -/
def topsortT (g : Graph) : Except GErr (List String) :=
  match tsVisit g (tsFuel g) g.sinks ⟨[], [], []⟩ with
  | .error e => .error e
  | .ok st =>
    if (st.visited.length : Int) = g.nodeCount_ then .ok st.results
    else .error .cycleException

/-- `isAcyclic(g)`: false exactly on the `CycleException`; any other error
is rethrown. -/
def isAcyclicT (g : Graph) : Except GErr Bool :=
  match topsortT g with
  | .ok _ => .ok true
  | .error .cycleException => .ok false
  | .error e => .error e

/-- A directed cycle along stored edges: a nonempty predecessor-relation walk
from `v` back to `v` (`a ∈ predsOf g b` holds exactly when the adjacency maps
record an edge a → b). -/
def HasCycle (g : Graph) : Prop :=
  ∃ (v : String) (l : List String),
    List.Chain (fun a b => a ∈ predsOf g b) v (l ++ [v])

/-- The adjacency-structure consistency that the `Graph` class maintains for
every state it can reach, specialised to what `topsort` consults: node keys
are duplicate-free, the node counter matches, the predecessor map is keyed by
nodes and valued in nodes, it records exactly the stored edges, and the
out-edge map of a node is empty exactly when no node lists it as a
predecessor (so `sinks()` are exactly the nodes without successors). -/
def WF (g : Graph) : Prop :=
  (alKeys g.nodes_).Nodup ∧
  g.nodeCount_ = (g.nodes.length : Int) ∧
  (∀ v ∈ alKeys g.preds_, v ∈ g.nodes) ∧
  (∀ v ∈ g.nodes, ∀ p ∈ predsOf g v, p ∈ g.nodes) ∧
  (∀ eo ∈ g.edges, eo.v ∈ g.nodes ∧ eo.w ∈ g.nodes ∧
    eo.v ∈ predsOf g eo.w) ∧
  (∀ v ∈ g.nodes, ∀ p ∈ predsOf g v,
    ∃ eo ∈ g.edges, eo.v = p ∧ eo.w = v) ∧
  (∀ v ∈ g.nodes, (((alGet g.outEdges_ v).getD []).isEmpty = true ↔
    ∀ w ∈ g.nodes, v ∉ predsOf g w))

instance (g : Graph) : Decidable (WF g) := by
  unfold WF
  infer_instance

/-- The invariant of `topsort`'s visit state: `visited` is the disjoint
union of `results` (closed nodes) and `stack` (open nodes), both without
duplicates, and every closed node's predecessors are closed before it. -/
def TSInv (g : Graph) (st : TS) : Prop :=
  (∀ x, x ∈ st.visited ↔ (x ∈ st.results ∨ x ∈ st.stack)) ∧
  (∀ x, ¬ (x ∈ st.results ∧ x ∈ st.stack)) ∧
  st.visited.Nodup ∧
  st.results.Nodup ∧
  (∀ pre y post, st.results = pre ++ y :: post → ∀ p ∈ predsOf g y, p ∈ pre)

/-! ### Concrete scenario graphs -/

set_option maxRecDepth 400000

/-- The spec scenario path graph: `setPath(["b","c","a"])` on a default
(directed, non-multi, non-compound) graph. -/
def pathGraphBCA : Graph :=
  ((Graph.new true false false).setPathR ["b", "c", "a"] none).1

/-- The negative-weight scenario graph of the spec and the repository tests:
a directed graph with edges a→b, a→c, b→d, c→d. -/
def negGraph : Graph :=
  let g := Graph.new true false false
  let g := (g.setEdgeR "a" "b" none none).1
  let g := (g.setEdgeR "a" "c" none none).1
  let g := (g.setEdgeR "b" "d" none none).1
  (g.setEdgeR "c" "d" none none).1

/-- The scenario weight function: a-b = 1, a-c = -2, b-d = 3, c-d = 3. -/
def negWeight : Edge → Int := fun e =>
  if e.v = "a" && e.w = "b" then 1
  else if e.v = "a" && e.w = "c" then -2
  else 3

/-- A directed graph holding only the edge `("\x01", "\x01\x01")`. -/
def delimGraph : Graph :=
  ((Graph.new true false false).setEdgeR "\x01" "\x01\x01" none none).1

/-- A compound graph with parent chain c → b → a
(`setParent("c","b"); setParent("b","a")`). -/
def compoundCBA : Graph :=
  (((Graph.new true false true).setParentR "c" (some "b")).1.setParentR
    "b" (some "a")).1

/-- The delimiter-aliasing graph: one directed edge from `"\x01\x01"` to `""`
plus an isolated node `"\x01"`.  The stored edge id is the string
`"\x01\x01" ++ "\x01" ++ "" ++ "\x01" ++ "\x00"`, which is the same string
as the edge id of the self-loop `("\x01", "\x01")`, so
`hasEdge("\x01","\x01")` answers `true` although no such edge exists. -/
def aliasGraph : Graph :=
  (((Graph.new true false false).setEdgeR "\x01\x01" "" none none).1).setNode
    "\x01" none

/-- The counter invariant, stated with explicit offsets (`dn`, `de`) so that
the intermediate states inside `removeNode` — node entry already deleted,
counter not yet decremented — satisfy the same statement with offset 1:
the counters track the map sizes, the node and edge-object maps have
duplicate-free key lists, and an edge id is stored in the object map exactly
when it is stored in the label map. -/
def CountInvAux (g : Graph) (dn de : Int) : Prop :=
  g.nodeCount_ = (g.nodes_.length : Int) + dn ∧
  g.edgeCount_ = (g.edgeObjs_.length : Int) + de ∧
  (alKeys g.nodes_).Nodup ∧
  (alKeys g.edgeObjs_).Nodup ∧
  ∀ e, alHas g.edgeObjs_ e = alHas g.edgeLabels_ e

/-- The public counter invariant of the spec: `nodeCount_` and `edgeCount_`
equal the sizes of the node and edge collections. -/
def CountInv (g : Graph) : Prop := CountInvAux g 0 0

/-- Graph states reachable from a constructor call by the public mutators
named in the spec (`setNode`, `setNodes`, `setEdge` in both overloads,
`setPath`, `setParent`, `removeNode`, `removeEdge` in both overloads,
`filterNodes`).  The first component of a fallible mutator is the state
after the call whether or not it threw, because every throw precedes the
first mutation. -/
inductive Reachable : Graph → Prop
  | new (d m c : Bool) : Reachable (Graph.new d m c)
  | setNodeR (g : Graph) (v : Option String) (val : Option (Option String)) :
      Reachable g → Reachable (g.setNodeR v val).1
  | setNodes (g : Graph) (vs : List String) (val : Option (Option String)) :
      Reachable g → Reachable (g.setNodes vs val)
  | setEdgeR (g : Graph) (v w : String) (val : Option (Option String))
      (name : Option String) :
      Reachable g → Reachable (g.setEdgeR v w val name).1
  | setEdgeObjR (g : Graph) (e : Edge) (val : Option String) :
      Reachable g → Reachable (g.setEdgeObjR e val).1
  | setPathR (g : Graph) (vs : List String) (val : Option (Option String)) :
      Reachable g → Reachable (g.setPathR vs val).1
  | setParentR (g : Graph) (v : String) (p : Option String) :
      Reachable g → Reachable (g.setParentR v p).1
  | removeNode (g : Graph) (v : String) :
      Reachable g → Reachable (g.removeNode v)
  | removeEdge (g : Graph) (v w : String) (name : Option String) :
      Reachable g → Reachable (g.removeEdge v w name)
  | removeEdgeObj (g : Graph) (e : Edge) :
      Reachable g → Reachable (g.removeEdgeObj e)
  | filterNodesR (g : Graph) (pred : String → Bool) :
      Reachable g → Reachable (g.filterNodesR pred).1

/-! ### Association-list lemmas -/

section AListLemmas

variable {K V : Type} [DecidableEq K]

theorem alGet_alSet_self (l : AList K V) (k : K) (v : V) :
    alGet (alSet l k v) k = some v := by
  induction l with
  | nil => simp [alSet, alGet]
  | cons p t ih =>
    by_cases h : p.1 = k
    · simp [alSet, h, alGet]
    · simp [alSet, h, alGet, ih]

theorem alGet_alSet_ne (l : AList K V) (k k' : K) (v : V) (h : k' ≠ k) :
    alGet (alSet l k v) k' = alGet l k' := by
  have hk : ¬ k = k' := fun hh => h hh.symm
  induction l with
  | nil => simp [alSet, alGet, hk]
  | cons p t ih =>
    by_cases hp : p.1 = k
    · rw [show alSet (p :: t) k v = (p.1, v) :: t by simp [alSet, hp]]
      simp only [alGet]
      rw [if_neg (hp ▸ hk : ¬ p.1 = k'), if_neg (hp ▸ hk : ¬ p.1 = k')]
    · rw [show alSet (p :: t) k v = (p.1, p.2) :: alSet t k v by simp [alSet, hp]]
      simp only [alGet]
      by_cases hp' : p.1 = k'
      · rw [if_pos hp', if_pos hp']
      · rw [if_neg hp', if_neg hp', ih]

theorem mem_alKeys_iff (l : AList K V) (k : K) :
    k ∈ alKeys l ↔ alHas l k = true := by
  induction l with
  | nil => simp [alKeys, alHas, alGet]
  | cons p t ih =>
    by_cases h : p.1 = k
    · simp [alKeys, alHas, alGet, h]
    · simp only [alKeys, List.map_cons, List.mem_cons, alHas, alGet, h,
        if_false]
      constructor
      · intro hh
        rcases hh with hh | hh
        · exact absurd hh.symm h
        · exact (ih.mp hh)
      · intro hh
        exact Or.inr (ih.mpr hh)

theorem alHas_alSet_self (l : AList K V) (k : K) (v : V) :
    alHas (alSet l k v) k = true := by
  simp [alHas, alGet_alSet_self]

theorem alHas_alSet_ne (l : AList K V) (k k' : K) (v : V) (h : k' ≠ k) :
    alHas (alSet l k v) k' = alHas l k' := by
  simp [alHas, alGet_alSet_ne l k k' v h]

theorem alKeys_alSet_of_has (l : AList K V) (k : K) (v : V)
    (h : alHas l k = true) : alKeys (alSet l k v) = alKeys l := by
  induction l with
  | nil => simp [alHas, alGet] at h
  | cons p t ih =>
    by_cases hp : p.1 = k
    · simp [alSet, hp, alKeys]
    · simp only [alHas, alGet, hp, if_false] at h
      have h2 := ih h
      simp only [alKeys] at h2 ⊢
      simp [alSet, hp, h2]

theorem alKeys_alSet_of_not_has (l : AList K V) (k : K) (v : V)
    (h : alHas l k = false) : alKeys (alSet l k v) = alKeys l ++ [k] := by
  induction l with
  | nil => simp [alSet, alKeys]
  | cons p t ih =>
    by_cases hp : p.1 = k
    · simp [alHas, alGet, hp] at h
    · simp only [alHas, alGet, hp, if_false] at h
      have h2 := ih h
      simp only [alKeys] at h2 ⊢
      simp [alSet, hp, h2]

theorem length_alSet_of_has (l : AList K V) (k : K) (v : V)
    (h : alHas l k = true) : (alSet l k v).length = l.length := by
  have := alKeys_alSet_of_has l k v h
  have h1 : (alKeys (alSet l k v)).length = (alKeys l).length := by rw [this]
  simpa [alKeys] using h1

theorem length_alSet_of_not_has (l : AList K V) (k : K) (v : V)
    (h : alHas l k = false) : (alSet l k v).length = l.length + 1 := by
  have := alKeys_alSet_of_not_has l k v h
  have h1 : (alKeys (alSet l k v)).length = (alKeys l).length + 1 := by
    rw [this]; simp
  simpa [alKeys] using h1

theorem alKeys_nodup_alSet (l : AList K V) (k : K) (v : V)
    (h : (alKeys l).Nodup) : (alKeys (alSet l k v)).Nodup := by
  by_cases hh : alHas l k = true
  · rw [alKeys_alSet_of_has l k v hh]; exact h
  · rw [alKeys_alSet_of_not_has l k v (by simpa using hh)]
    rw [List.nodup_append]
    refine ⟨h, List.nodup_singleton k, ?_⟩
    intro a ha hb
    simp only [List.mem_singleton] at hb
    subst hb
    exact hh ((mem_alKeys_iff l a).mp ha)

theorem alGet_alDel_self (l : AList K V) (k : K) :
    alGet (alDel l k) k = none := by
  induction l with
  | nil => simp [alDel, alGet]
  | cons p t ih =>
    by_cases hp : p.1 = k
    · simpa [alDel, hp] using ih
    · simpa [alDel, hp, alGet] using ih

theorem alGet_alDel_ne (l : AList K V) (k k' : K) (h : k' ≠ k) :
    alGet (alDel l k) k' = alGet l k' := by
  induction l with
  | nil => simp [alDel, alGet]
  | cons p t ih =>
    by_cases hp : p.1 = k
    · have hd : alDel (p :: t) k = alDel t k := by
        simp [alDel, List.filter_cons, hp]
      rw [hd, ih]
      simp only [alGet]
      rw [if_neg (by rw [hp]; exact fun hh => h hh.symm)]
    · have hd : alDel (p :: t) k = (p.1, p.2) :: alDel t k := by
        simp [alDel, List.filter_cons, hp]
      rw [hd]
      simp only [alGet]
      by_cases hp' : p.1 = k'
      · rw [if_pos hp', if_pos hp']
      · rw [if_neg hp', if_neg hp', ih]

theorem alDel_of_not_has (l : AList K V) (k : K) (h : alHas l k = false) :
    alDel l k = l := by
  induction l with
  | nil => simp [alDel]
  | cons p t ih =>
    by_cases hp : p.1 = k
    · simp [alHas, alGet, hp] at h
    · simp only [alHas, alGet, hp, if_false] at h
      simp [alDel, hp] at ih ⊢
      exact ih h

theorem alKeys_alDel (l : AList K V) (k : K) :
    alKeys (alDel l k) = (alKeys l).filter (fun x => decide (x ≠ k)) := by
  induction l with
  | nil => simp [alDel, alKeys]
  | cons p t ih =>
    by_cases hp : p.1 = k
    · have hd : alDel (p :: t) k = alDel t k := by
        simp [alDel, List.filter_cons, hp]
      rw [hd, ih]
      simp only [alKeys, List.map_cons, List.filter_cons]
      rw [if_neg (by simp [hp])]
    · have hd : alDel (p :: t) k = (p.1, p.2) :: alDel t k := by
        simp [alDel, List.filter_cons, hp]
      rw [hd]
      simp only [alKeys, List.map_cons, List.filter_cons]
      rw [if_pos (by simp [hp])]
      simp only [alKeys] at ih
      rw [ih]

theorem alKeys_nodup_alDel (l : AList K V) (k : K)
    (h : (alKeys l).Nodup) : (alKeys (alDel l k)).Nodup := by
  rw [alKeys_alDel]
  exact h.filter _

theorem length_alDel_of_has (l : AList K V) (k : K)
    (hnd : (alKeys l).Nodup) (h : alHas l k = true) :
    (alDel l k).length + 1 = l.length := by
  induction l with
  | nil => simp [alHas, alGet] at h
  | cons p t ih =>
    simp only [alKeys, List.map_cons, List.nodup_cons] at hnd
    by_cases hp : p.1 = k
    · have hk : alHas t k = false := by
        cases hhh : alHas t k with
        | true =>
          exact absurd ((mem_alKeys_iff t k).mpr hhh)
            (by rw [hp] at hnd; exact hnd.1)
        | false => rfl
      have hd : alDel (p :: t) k = alDel t k := by
        simp [alDel, List.filter_cons, hp]
      rw [hd, alDel_of_not_has t k hk]
      simp
    · have hh : alHas t k = true := by
        simp only [alHas, alGet, hp, if_false] at h
        exact h
      have hd : alDel (p :: t) k = (p.1, p.2) :: alDel t k := by
        simp [alDel, List.filter_cons, hp]
      have h3 := ih hnd.2 hh
      rw [hd]
      simp only [List.length_cons]
      omega

theorem alValues_alSet_of_not_has (l : AList K V) (k : K) (v : V)
    (h : alHas l k = false) : alValues (alSet l k v) = alValues l ++ [v] := by
  induction l with
  | nil => simp [alSet, alValues]
  | cons p t ih =>
    by_cases hp : p.1 = k
    · simp [alHas, alGet, hp] at h
    · simp only [alHas, alGet, hp, if_false] at h
      have h2 := ih h
      simp only [alValues] at h2 ⊢
      simp [alSet, hp, h2]

theorem mem_alValues_alSet (l : AList K V) (k : K) (v : V) :
    v ∈ alValues (alSet l k v) := by
  induction l with
  | nil => simp [alSet, alValues]
  | cons p t ih =>
    by_cases hp : p.1 = k
    · simp [alSet, hp, alValues]
    · simp only [alSet, hp, if_false]
      simp only [alValues, List.map_cons, List.mem_cons]
      exact Or.inr ih

theorem alHas_exists {l : AList K V} {k : K} (h : alHas l k = true) :
    ∃ v, alGet l k = some v := by
  unfold alHas at h
  exact Option.isSome_iff_exists.mp h

theorem length_alKeys (l : AList K V) : (alKeys l).length = l.length := by
  simp [alKeys]

theorem length_alValues (l : AList K V) : (alValues l).length = l.length := by
  simp [alValues]

end AListLemmas

/-! ### C3 -/

/-- C3: on an empty `PriorityQueue` (`size() === 0`) both `min()` and
`removeMin()` fail with an error and neither returns a key: `min` throws
`Queue underflow`; `removeMin`, which has no guard, faults inside
`_swap(0, -1)` reading `queue[0].key` of `undefined`. -/
theorem C3_empty_queue_min_removeMin_fail (pq : PriorityQueue)
    (h : pq.size = 0) :
    pq.min = .error (.error "Queue underflow") ∧
      pq.removeMin =
        .error (.error "TypeError: cannot read key of undefined") := by
  obtain ⟨q, ki⟩ := pq
  simp only [PriorityQueue.size] at h
  have hq : q = [] := List.length_eq_zero.mp h
  subst hq
  exact ⟨rfl, rfl⟩

/-- Witness for C3 at the freshly constructed empty queue. -/
theorem C3_empty_queue_min_removeMin_fail_witness :
    PriorityQueue.empty.size = 0 ∧
      (PriorityQueue.empty.min = .error (.error "Queue underflow") ∧
        PriorityQueue.empty.removeMin =
          .error (.error "TypeError: cannot read key of undefined")) :=
  ⟨rfl, C3_empty_queue_min_removeMin_fail PriorityQueue.empty rfl⟩

/-! ### C7 -/

/-- C7: each validation error throws synchronously and returns the receiver
graph completely unmodified: `setNode` with a `null`/`undefined` id throws
the id-validation error; `setEdge` that would create a new named edge on a
non-multigraph throws; `setParent` on a non-compound graph throws. -/
theorem C7_validation_errors_leave_graph_unmodified (g : Graph)
    (v w x : String) (p : Option String) (val : Option (Option String))
    (name : String)
    (hM : g.isMultigraph = false)
    (hNew : g.hasEdge v w (some name) = false)
    (hC : g.isCompound = false) :
    g.setNodeR none val =
        (g, some (.error "Node IDs cannot be null or undefined")) ∧
      g.setEdgeR v w val (some name) =
        (g, some (.error "Cannot set a named edge when isMultigraph = false")) ∧
      g.setParentR x p =
        (g, some (.error "Cannot set parent in a non-compound graph")) := by
  refine ⟨rfl, ?_, ?_⟩
  · simp only [Graph.hasEdge] at hNew
    simp only [Graph.isMultigraph] at hM
    simp [Graph.setEdgeR, hNew, hM]
  · simp only [Graph.isCompound] at hC
    simp [Graph.setParentR, hC]

/-- Witness for C7 on a fresh directed non-multi non-compound graph. -/
theorem C7_validation_errors_leave_graph_unmodified_witness :
    ((Graph.new true false false).isMultigraph = false ∧
      (Graph.new true false false).hasEdge "a" "b" (some "n") = false ∧
      (Graph.new true false false).isCompound = false) ∧
    ((Graph.new true false false).setNodeR none none =
        (Graph.new true false false,
          some (.error "Node IDs cannot be null or undefined")) ∧
      (Graph.new true false false).setEdgeR "a" "b" none (some "n") =
        (Graph.new true false false,
          some (.error "Cannot set a named edge when isMultigraph = false")) ∧
      (Graph.new true false false).setParentR "a" (some "p") =
        (Graph.new true false false,
          some (.error "Cannot set parent in a non-compound graph"))) :=
  ⟨⟨rfl, rfl, rfl⟩,
    C7_validation_errors_leave_graph_unmodified (Graph.new true false false)
      "a" "b" "a" (some "p") none "n" rfl rfl rfl⟩

/-! ### C1 -/

/-- C1 (the code falsifies the claim's `isDirected()` half): `prim` builds
its result with `new Graph()`, whose `directed` option defaults to `true`.
On the one-node input graph `{"a"}` it does not throw, preserves the node
set as the claim states, but returns a graph whose `isDirected()` is `true`,
although `prim`'s own doc comment promises an undirected spanning tree. -/
theorem C1_prim_result_directed_on_single_node :
    (prim ((Graph.new true false false).setNode "a" none) (fun _ => 0)).map
        (fun t => (t.isDirected, t.nodes)) = .ok (true, ["a"]) := by decide

/-! ### C8 -/

/-- C8 (the code falsifies the claimed equivalence): on `aliasGraph`,
`isAcyclic` returns `true` (topsort succeeds — the graph has no cycle), yet
`findCycles` returns `[["\x01"]]` because the edge-id string of the stored
edge `("\x01\x01","")` collides with the id queried by
`hasEdge("\x01","\x01")`; so `isAcyclic(g) === (findCycles(g).length === 0)`
fails, and `findCycles` reports a node that is part of no cycle,
contradicting its own documentation. -/
theorem C8_isAcyclic_findCycles_disagree_on_alias_graph :
    isAcyclicT aliasGraph = .ok true ∧
      findCycles aliasGraph = [["\x01"]] ∧
      aliasGraph.hasEdge "\x01" "\x01" none = true ∧
      aliasGraph.edges = [{ v := "\x01\x01", w := "", name := none }] := by
  decide

/-! ### C5 -/

/-- C5: on the scenario graph a-b(1), a-c(-2), b-d(3), c-d(3), `dijkstra`
from `a` (and hence `dijkstraAll`) throws the negative-edge-weight error as
soon as relaxation reaches the edge a→c, while `floydWarshall` accepts the
negative weight and returns distance a→c = -2 with predecessor a and
distance a→d = 1 with predecessor c. -/
theorem C5_dijkstra_rejects_negative_weights_floyd_accepts :
    dijkstra negGraph "a" negWeight =
        .error (.error "dijkstra does not allow negative edge weights") ∧
      dijkstraAll negGraph negWeight =
        .error (.error "dijkstra does not allow negative edge weights") ∧
      alGet ((alGet (floydWarshall negGraph negWeight) "a").getD []) "c" =
        some ⟨JNum.fin (-2), some "a"⟩ ∧
      alGet ((alGet (floydWarshall negGraph negWeight) "a").getD []) "d" =
        some ⟨JNum.fin 1, some "c"⟩ := by
  decide

/-! ### C9 (counterexample) -/

/-- C9 is falsified by the code for ids containing the reserved edge-key
delimiter `"\x01"`: in a directed graph the distinct ordered pairs
`("\x01", "\x01\x01")` and `("\x01\x01", "\x01")` produce the same edge-id
string, so they address the same edge — setting the first makes `hasEdge`
answer `true` for the second. -/
theorem C9_counterexample_directed_pairs_share_an_edge :
    "\x01" ≠ "\x01\x01" ∧
      edgeArgsToId true "\x01" "\x01\x01" none =
        edgeArgsToId true "\x01\x01" "\x01" none ∧
      delimGraph.isDirected = true ∧
      delimGraph.edges = [{ v := "\x01", w := "\x01\x01", name := none }] ∧
      delimGraph.hasEdge "\x01\x01" "\x01" none = true := by
  decide

/-! ### C9 (amended) and C10 -/

/-- `charListLt` is asymmetric. -/
theorem charListLt_asymm : ∀ a b : List Char,
    charListLt a b = true → charListLt b a = false := by
  intro a
  induction a with
  | nil =>
    intro b h
    cases b with
    | nil => simp [charListLt] at h
    | cons c cs => simp [charListLt]
  | cons c cs ih =>
    intro b h
    cases b with
    | nil => simp [charListLt] at h
    | cons d ds =>
      rcases Nat.lt_trichotomy c.toNat d.toNat with h1 | h1 | h1
      · simp [charListLt, Nat.lt_asymm h1, h1]
      · simp only [charListLt, h1, lt_irrefl, if_false] at h ⊢
        exact ih ds h
      · simp [charListLt, Nat.lt_asymm h1, h1] at h

/-- Two lists neither of which is `charListLt`-below the other are equal. -/
theorem charListLt_both_false : ∀ a b : List Char,
    charListLt a b = false → charListLt b a = false → a = b := by
  intro a
  induction a with
  | nil =>
    intro b h1 _
    cases b with
    | nil => rfl
    | cons c cs => simp [charListLt] at h1
  | cons c cs ih =>
    intro b h1 h2
    cases b with
    | nil => simp [charListLt] at h2
    | cons d ds =>
      rcases Nat.lt_trichotomy c.toNat d.toNat with hl | hl | hl
      · simp [charListLt, hl] at h1
      · have hcd : c = d := Char.eq_of_val_eq (UInt32.ext hl)
        subst hcd
        simp only [charListLt, lt_irrefl, if_false] at h1 h2
        rw [ih ds h1 h2]
      · simp [charListLt, hl] at h2

/-- Canonicalization makes undirected edge ids symmetric in the pair, for
all ids: if the two ids compare equal neither call swaps and the ids are the
same string, and otherwise exactly one of the two calls swaps. -/
theorem edgeArgsToId_undirected_symm (v w : String) (name : Option String) :
    edgeArgsToId false v w name = edgeArgsToId false w v name := by
  unfold edgeArgsToId
  cases h1 : jsStrLt w v
  · cases h2 : jsStrLt v w
    · have : v = w := String.ext (charListLt_both_false _ _ h2 h1)
      subst this
      rfl
    · simp [h1, h2]
  · have h2 : jsStrLt v w = false := charListLt_asymm _ _ h1
    simp [h1, h2]

/-- Splitting at the first occurrence of a character absent from both
prefixes is unambiguous. -/
theorem append_delim_eq {d : Char} (a : List Char) :
    ∀ (b x y : List Char), d ∉ a → d ∉ b → a ++ d :: x = b ++ d :: y →
      a = b := by
  induction a with
  | nil =>
    intro b x y _ hb h
    cases b with
    | nil => rfl
    | cons c bt =>
      exfalso
      simp only [List.nil_append, List.cons_append, List.cons.injEq] at h
      exact hb (by rw [h.1]; exact List.mem_cons_self c bt)
  | cons c at' ih =>
    intro b x y ha hb h
    cases b with
    | nil =>
      exfalso
      simp only [List.cons_append, List.nil_append, List.cons.injEq] at h
      exact ha (by rw [← h.1]; exact List.mem_cons_self c at')
    | cons c' bt =>
      simp only [List.cons_append, List.cons.injEq] at h
      have ha' : d ∉ at' := fun hh => ha (List.mem_cons_of_mem _ hh)
      have hb' : d ∉ bt := fun hh => hb (List.mem_cons_of_mem _ hh)
      rw [h.1, ih bt x y ha' hb' h.2]

/-- For delimiter-free distinct ids, the two directed orientations of a pair
have different edge-id strings. -/
theorem edgeArgsToId_directed_inj (v w : String) (name : Option String)
    (hvw : v ≠ w) (hv : ('\x01' : Char) ∉ v.data)
    (hw : ('\x01' : Char) ∉ w.data) :
    edgeArgsToId true v w name ≠ edgeArgsToId true w v name := by
  intro h
  unfold edgeArgsToId at h
  simp only [Bool.not_true, Bool.false_and, if_false] at h
  have hd := congrArg String.data h
  simp only [String.data_append] at hd
  have hD : EDGE_KEY_DELIM.data = ['\x01'] := by decide
  rw [hD] at hd
  have hd2 : v.data ++ ('\x01' :: (w.data ++ '\x01' ::
        (name.getD DEFAULT_EDGE_NAME).data)) =
      w.data ++ ('\x01' :: (v.data ++ '\x01' ::
        (name.getD DEFAULT_EDGE_NAME).data)) := by
    simpa [List.append_assoc] using hd
  exact hvw (String.ext (append_delim_eq v.data w.data _ _ hv hw hd2))

/-- C9 (amended): for every undirected graph `edge` and `hasEdge` are
symmetric in the endpoint pair for all ids, because the pair is
canonicalized by the id order; in a directed graph, two distinct ids neither
of which contains the reserved delimiter `"\x01"` give the two orientations
distinct edge ids (with delimiter-carrying ids they can coincide, as the
counterexample shows). -/
theorem C9_undirected_symmetric_directed_distinct (g : Graph)
    (v w : String) (name : Option String) (hu : g.isDirected = false)
    (v2 w2 : String) (name2 : Option String) (hvw : v2 ≠ w2)
    (hv : ('\x01' : Char) ∉ v2.data) (hw : ('\x01' : Char) ∉ w2.data) :
    (g.edge v w name = g.edge w v name ∧
      g.hasEdge v w name = g.hasEdge w v name) ∧
      edgeArgsToId true v2 w2 name2 ≠ edgeArgsToId true w2 v2 name2 := by
  simp only [Graph.isDirected] at hu
  have hid := edgeArgsToId_undirected_symm v w name
  refine ⟨⟨?_, ?_⟩, edgeArgsToId_directed_inj v2 w2 name2 hvw hv hw⟩
  · simp [Graph.edge, hu, hid]
  · simp [Graph.hasEdge, hu, hid]

/-- Witness for C9 (amended) on an undirected graph with one edge and on the
delimiter-free directed pair ("a", "b"). -/
theorem C9_undirected_symmetric_directed_distinct_witness :
    ((((Graph.new false false false).setEdgeR "y" "x" none none).1.isDirected
        = false) ∧
      "a" ≠ "b" ∧ ('\x01' : Char) ∉ "a".data ∧ ('\x01' : Char) ∉ "b".data) ∧
    ((((Graph.new false false false).setEdgeR "y" "x" none none).1.edge
          "x" "y" none =
        ((Graph.new false false false).setEdgeR "y" "x" none none).1.edge
          "y" "x" none ∧
      ((Graph.new false false false).setEdgeR "y" "x" none none).1.hasEdge
          "x" "y" none =
        ((Graph.new false false false).setEdgeR "y" "x" none none).1.hasEdge
          "y" "x" none) ∧
      edgeArgsToId true "a" "b" none ≠ edgeArgsToId true "b" "a" none) :=
  ⟨⟨rfl, by decide, by decide, by decide⟩,
    C9_undirected_symmetric_directed_distinct
      ((Graph.new false false false).setEdgeR "y" "x" none none).1
      "x" "y" none rfl "a" "b" none (by decide) (by decide) (by decide)⟩

/-- `setNode` never touches the edge-object and edge-label maps. -/
theorem setNode_edgeObjs (g : Graph) (u : String)
    (val : Option (Option String)) :
    (g.setNode u val).edgeObjs_ = g.edgeObjs_ ∧
      (g.setNode u val).edgeLabels_ = g.edgeLabels_ := by
  unfold Graph.setNode
  by_cases h : alHas g.nodes_ u <;> cases val <;> simp [h]

/-- After `setNode(u)` the in-edge map has an entry for `u`, provided the
receiver was consistent at `u` (an entry iff the node exists). -/
theorem setNode_inEdges_has (g : Graph) (u : String)
    (val : Option (Option String))
    (hsync : alHas g.inEdges_ u = g.hasNode u) :
    alHas (g.setNode u val).inEdges_ u = true := by
  unfold Graph.setNode
  by_cases h : alHas g.nodes_ u
  · cases val <;> simp only [h, if_true] <;>
      simpa [Graph.hasNode, h] using hsync
  · cases val <;> simp [h, alHas_alSet_self]

/-- `setNode` only ever adds in-edge entries. -/
theorem setNode_inEdges_mono (g : Graph) (u x : String)
    (val : Option (Option String))
    (h : alHas g.inEdges_ x = true) :
    alHas (g.setNode u val).inEdges_ x = true := by
  unfold Graph.setNode
  by_cases hn : alHas g.nodes_ u
  · cases val <;> simpa [hn] using h
  · by_cases hx : x = u
    · subst hx; cases val <;> simp [hn, alHas_alSet_self]
    · cases val <;> simp [hn, alHas_alSet_ne _ _ _ _ hx, h]

/-- `setNode(u)` leaves the node-presence and in-edge entry of any other id
unchanged. -/
theorem setNode_preserves_at_ne (g : Graph) (u x : String)
    (val : Option (Option String)) (hx : x ≠ u) :
    (g.setNode u val).hasNode x = g.hasNode x ∧
      alHas (g.setNode u val).inEdges_ x = alHas g.inEdges_ x := by
  unfold Graph.setNode Graph.hasNode
  by_cases hn : alHas g.nodes_ u
  · cases val <;> simp [hn, alHas_alSet_ne _ _ _ _ hx]
  · cases val <;> simp [hn, alHas_alSet_ne _ _ _ _ hx]

/-- C10: in an undirected graph, a fresh `setEdge(v, w, ..., name)` call with
`v > w` stores the frozen canonicalized descriptor whose `v` field is the
caller's `w` argument and whose `w` field is the caller's `v` argument (the
endpoints swapped relative to the call); `edges()` then lists exactly that
descriptor appended, and `outEdges`/`inEdges`/`nodeEdges` of the endpoints
all return it. -/
theorem C10_undirected_descriptor_canonicalized (g : Graph)
    (v w : String) (name : Option String) (val : Option (Option String))
    (hu : g.isDirected = false)
    (hswap : jsStrLt w v = true)
    (hname : name = none ∨ g.isMultigraph = true)
    (hnew : g.hasEdge v w name = false)
    (hobj : alHas g.edgeObjs_ (edgeArgsToId g.isDirected_ v w name) = false)
    (hiw : alHas g.inEdges_ w = g.hasNode w) :
    (edgeArgsToObj g.isDirected_ v w name).v = w ∧
      (edgeArgsToObj g.isDirected_ v w name).w = v ∧
      (g.setEdgeR v w val name).1.edges =
        g.edges ++ [edgeArgsToObj g.isDirected_ v w name] ∧
      edgeArgsToObj g.isDirected_ v w name ∈
        ((g.setEdgeR v w val name).1.outEdges w).getD [] ∧
      edgeArgsToObj g.isDirected_ v w name ∈
        ((g.setEdgeR v w val name).1.inEdges v).getD [] ∧
      edgeArgsToObj g.isDirected_ v w name ∈
        ((g.setEdgeR v w val name).1.nodeEdges v).getD [] ∧
      edgeArgsToObj g.isDirected_ v w name ∈
        ((g.setEdgeR v w val name).1.nodeEdges w).getD [] := by
  simp only [Graph.isDirected] at hu
  simp only [Graph.hasEdge] at hnew
  have hvw : ¬ v = w := fun hh => by
    rw [hh] at hswap
    have h2 : jsStrLt w w = false := charListLt_asymm _ _ hswap
    rw [hswap] at h2
    exact Bool.noConfusion h2
  have hwv : w ≠ v := fun hh => hvw hh.symm
  have hguard : (name.isSome && !g.isMultigraph_) = false := by
    rcases hname with h | h
    · rw [h]; rfl
    · simp only [Graph.isMultigraph] at h
      simp [h]
  rw [hu] at hnew hobj
  set e := edgeArgsToId false v w name with he
  set eo := edgeArgsToObj false v w name with heodef
  have heo : edgeArgsToObj g.isDirected_ v w name = eo := by rw [hu]
  have heov : eo.v = w := by
    rw [heodef]
    simp [edgeArgsToObj, hswap]
  have heow : eo.w = v := by
    rw [heodef]
    simp [edgeArgsToObj, hswap]
  set g1 := (g.setNode v none).setNode w none with hg1
  have hobj1 : g1.edgeObjs_ = g.edgeObjs_ := by
    rw [hg1, (setNode_edgeObjs _ _ _).1, (setNode_edgeObjs _ _ _).1]
  have hstep : (g.setEdgeR v w val name).1 =
      { g1 with
        edgeLabels_ := alSet g1.edgeLabels_ e
          (val.getD (g.defaultEdgeLabelFn v w name))
        edgeObjs_ := alSet g1.edgeObjs_ e eo
        preds_ := alSet g1.preds_ eo.w
          (Graph.incrementOrInitEntry ((alGet g1.preds_ eo.w).getD []) eo.v)
        sucs_ := alSet g1.sucs_ eo.v
          (Graph.incrementOrInitEntry ((alGet g1.sucs_ eo.v).getD []) eo.w)
        inEdges_ := alSet g1.inEdges_ eo.w
          (alSet ((alGet g1.inEdges_ eo.w).getD []) e eo)
        outEdges_ := alSet g1.outEdges_ eo.v
          (alSet ((alGet g1.outEdges_ eo.v).getD []) e eo)
        edgeCount_ := g1.edgeCount_ + 1 } := by
    unfold Graph.setEdgeR
    rw [hu]
    simp only [← he, ← heodef, ← hg1, hnew, Bool.false_eq_true, if_false,
      hguard]
  rw [heo]
  refine ⟨heov, heow, ?_, ?_, ?_, ?_, ?_⟩
  · rw [hstep]
    simp only [Graph.edges]
    rw [hobj1] at *
    exact alValues_alSet_of_not_has _ _ _ hobj
  · rw [hstep]
    simp only [Graph.outEdges, heov]
    rw [alGet_alSet_self]
    simpa using mem_alValues_alSet ((alGet g1.outEdges_ w).getD []) e eo
  · rw [hstep]
    simp only [Graph.inEdges, heow]
    rw [alGet_alSet_self]
    simpa using mem_alValues_alSet ((alGet g1.inEdges_ v).getD []) e eo
  · rw [hstep]
    simp only [Graph.nodeEdges, Graph.inEdges, heow]
    rw [alGet_alSet_self]
    simp only [Option.map_some', Option.getD_some]
    exact List.mem_append_left _
      (by simpa using mem_alValues_alSet ((alGet g1.inEdges_ v).getD []) e eo)
  · have hsync1 : alHas (g.setNode v none).inEdges_ w =
        (g.setNode v none).hasNode w := by
      rw [(setNode_preserves_at_ne g v w none hwv).2,
        (setNode_preserves_at_ne g v w none hwv).1, hiw]
    have hw1 : alHas g1.inEdges_ w = true := by
      rw [hg1]
      exact setNode_inEdges_has _ w none hsync1
    obtain ⟨iw, hiwget⟩ := alHas_exists hw1
    rw [hstep]
    simp only [Graph.nodeEdges, Graph.inEdges, Graph.outEdges, heov, heow]
    rw [alGet_alSet_ne _ _ _ _ hwv, hiwget, alGet_alSet_self]
    simp only [Option.map_some', Option.getD_some]
    refine List.mem_append_right _ ?_
    simpa using mem_alValues_alSet ((alGet g1.outEdges_ w).getD []) e eo

/-- Witness for C10 on a fresh undirected graph and the call
`setEdge("b", "a")` (so `"b" > "a"` and the stored descriptor is
`{v: "a", w: "b"}`). -/
theorem C10_undirected_descriptor_canonicalized_witness :
    ((Graph.new false false false).isDirected = false ∧
      jsStrLt "a" "b" = true ∧
      ((none : Option String) = none ∨
        (Graph.new false false false).isMultigraph = true) ∧
      (Graph.new false false false).hasEdge "b" "a" none = false ∧
      alHas (Graph.new false false false).edgeObjs_
        (edgeArgsToId (Graph.new false false false).isDirected_ "b" "a" none)
        = false ∧
      alHas (Graph.new false false false).inEdges_ "a" =
        (Graph.new false false false).hasNode "a") ∧
    ((edgeArgsToObj (Graph.new false false false).isDirected_ "b" "a" none).v
        = "a" ∧
      (edgeArgsToObj (Graph.new false false false).isDirected_ "b" "a"
        none).w = "b" ∧
      ((Graph.new false false false).setEdgeR "b" "a" none none).1.edges =
        (Graph.new false false false).edges ++
          [edgeArgsToObj (Graph.new false false false).isDirected_ "b" "a"
            none] ∧
      edgeArgsToObj (Graph.new false false false).isDirected_ "b" "a" none ∈
        (((Graph.new false false false).setEdgeR "b" "a" none
          none).1.outEdges "a").getD [] ∧
      edgeArgsToObj (Graph.new false false false).isDirected_ "b" "a" none ∈
        (((Graph.new false false false).setEdgeR "b" "a" none
          none).1.inEdges "b").getD [] ∧
      edgeArgsToObj (Graph.new false false false).isDirected_ "b" "a" none ∈
        (((Graph.new false false false).setEdgeR "b" "a" none
          none).1.nodeEdges "b").getD [] ∧
      edgeArgsToObj (Graph.new false false false).isDirected_ "b" "a" none ∈
        (((Graph.new false false false).setEdgeR "b" "a" none
          none).1.nodeEdges "a").getD []) :=
  ⟨⟨rfl, by decide, Or.inl rfl, by decide, by decide, by decide⟩,
    C10_undirected_descriptor_canonicalized (Graph.new false false false)
      "b" "a" none none rfl (by decide) (Or.inl rfl) (by decide) (by decide)
      (by decide)⟩


/-! ### C2 (amended) -/

/-- `_removeFromParentsChildList` only modifies the children map. -/
theorem rfpcl_fields (g : Graph) (v : String) :
    (g.removeFromParentsChildList v).nodes_ = g.nodes_ ∧
      (g.removeFromParentsChildList v).parent_ = g.parent_ ∧
      (g.removeFromParentsChildList v).isCompound_ = g.isCompound_ := by
  unfold Graph.removeFromParentsChildList
  split <;> (try split) <;> exact ⟨rfl, rfl, rfl⟩

/-- After `setNode(u)` the node exists. -/
theorem setNode_hasNode_self (g : Graph) (u : String)
    (val : Option (Option String)) : (g.setNode u val).hasNode u = true := by
  unfold Graph.setNode Graph.hasNode
  by_cases hn : alHas g.nodes_ u
  · cases val <;> simp [hn, alHas_alSet_self]
  · cases val <;> simp [hn, alHas_alSet_self]

/-- `setNode(u)` leaves the parent entry of any other id unchanged. -/
theorem setNode_parent_ne (g : Graph) (u x : String)
    (val : Option (Option String)) (hx : x ≠ u) :
    alGet (g.setNode u val).parent_ x = alGet g.parent_ x := by
  unfold Graph.setNode
  by_cases hn : alHas g.nodes_ u
  · cases val <;> simp [hn]
  · by_cases hcp : g.isCompound_ <;>
      cases val <;> simp [hn, hcp, alGet_alSet_ne _ _ _ _ hx]

/-- `setNode` preserves the graph flags. -/
theorem setNode_isCompound (g : Graph) (u : String)
    (val : Option (Option String)) :
    (g.setNode u val).isCompound_ = g.isCompound_ := by
  unfold Graph.setNode
  by_cases hn : alHas g.nodes_ u <;> cases val <;> simp [hn]

/-- `setParent` preserves the compound flag. -/
theorem setParentR_isCompound (g : Graph) (u : String) (p : Option String) :
    ((g.setParentR u p).1).isCompound_ = g.isCompound_ := by
  unfold Graph.setParentR
  by_cases hc : g.isCompound_
  · cases p
    · simp [hc, (rfpcl_fields _ _).2.2, setNode_isCompound]
    · simp only [hc, Bool.not_true, Bool.false_eq_true, if_false]
      split
      · exact hc
      · simp [hc, (rfpcl_fields _ _).2.2, setNode_isCompound]
  · simp [hc]

/-- The shape of `setParent(c)` (no parent argument) on a compound graph. -/
theorem setParentR_none_eq (g : Graph) (c : String)
    (hc : g.isCompound_ = true) :
    (g.setParentR c none).1 =
      { (g.setNode c none).removeFromParentsChildList c with
        parent_ := alSet
          ((g.setNode c none).removeFromParentsChildList c).parent_ c
          GRAPH_NODE
        children_ := alSet
          ((g.setNode c none).removeFromParentsChildList c).children_
          GRAPH_NODE
          (jsAdd ((alGet ((g.setNode c none).removeFromParentsChildList
            c).children_ GRAPH_NODE).getD []) c) } := by
  unfold Graph.setParentR
  simp [hc]

/-- `setParent(c)` (no parent argument) on a compound graph sets the parent
entry of `c` to the root sentinel. -/
theorem setParentR_none_parent_self (g : Graph) (c : String)
    (hc : g.isCompound_ = true) :
    alGet ((g.setParentR c none).1).parent_ c = some GRAPH_NODE := by
  rw [setParentR_none_eq g c hc]
  exact alGet_alSet_self _ _ _

/-- `setParent(c)` on a compound graph makes (or keeps) `c` a node. -/
theorem setParentR_none_hasNode_self (g : Graph) (c : String)
    (hc : g.isCompound_ = true) :
    ((g.setParentR c none).1).hasNode c = true := by
  rw [setParentR_none_eq g c hc]
  show alHas ((g.setNode c none).removeFromParentsChildList c).nodes_ c = true
  rw [(rfpcl_fields _ _).1]
  exact setNode_hasNode_self g c none

/-- `setParent(u)` touches the parent entry of no other node, keeps every
node, and preserves the compound flag. -/
theorem setParentR_none_preserves (g : Graph) (u x : String) (hx : x ≠ u) :
    alGet ((g.setParentR u none).1).parent_ x = alGet g.parent_ x ∧
      (g.hasNode x = true → ((g.setParentR u none).1).hasNode x = true) ∧
      ((g.setParentR u none).1).isCompound_ = g.isCompound_ := by
  refine ⟨?_, ?_, setParentR_isCompound g u none⟩
  · by_cases hc : g.isCompound_
    · rw [setParentR_none_eq g u hc]
      show alGet (alSet ((g.setNode u
        none).removeFromParentsChildList u).parent_ u GRAPH_NODE) x = _
      rw [alGet_alSet_ne _ _ _ _ hx, (rfpcl_fields _ _).2.1,
        setNode_parent_ne g u x none hx]
    · unfold Graph.setParentR
      simp [hc]
  · intro hnx
    by_cases hc : g.isCompound_
    · rw [setParentR_none_eq g u hc]
      show alHas ((g.setNode u none).removeFromParentsChildList u).nodes_ x
        = true
      rw [(rfpcl_fields _ _).1]
      show (g.setNode u none).hasNode x = true
      rw [(setNode_preserves_at_ne g u x none hx).1]
      exact hnx
    · unfold Graph.setParentR
      simpa [hc] using hnx

/-- `removeEdge` (by id) never touches nodes, parents, children or flags. -/
theorem removeEdgeId_preserves (g : Graph) (e : String) :
    (g.removeEdgeId e).nodes_ = g.nodes_ ∧
      (g.removeEdgeId e).parent_ = g.parent_ ∧
      (g.removeEdgeId e).isCompound_ = g.isCompound_ := by
  unfold Graph.removeEdgeId
  cases alGet g.edgeObjs_ e <;> simp

/-- The edge-removal folds of `removeNode` never touch nodes, parents or
flags. -/
theorem fold_removeEdge_preserves (ks : List String) (g : Graph) :
    ((ks.foldl (fun c e =>
        match alGet c.edgeObjs_ e with
        | some eo => c.removeEdgeObj eo
        | none => c) g).nodes_ = g.nodes_ ∧
      (ks.foldl (fun c e =>
        match alGet c.edgeObjs_ e with
        | some eo => c.removeEdgeObj eo
        | none => c) g).parent_ = g.parent_ ∧
      (ks.foldl (fun c e =>
        match alGet c.edgeObjs_ e with
        | some eo => c.removeEdgeObj eo
        | none => c) g).isCompound_ = g.isCompound_) := by
  induction ks generalizing g with
  | nil => exact ⟨rfl, rfl, rfl⟩
  | cons k ks ih =>
    simp only [List.foldl_cons]
    cases hk : alGet g.edgeObjs_ k
    · exact ih g
    · obtain ⟨q1, q2, q3⟩ := ih (g.removeEdgeObj _)
      unfold Graph.removeEdgeObj at q1 q2 q3 ⊢
      obtain ⟨r1, r2, r3⟩ := removeEdgeId_preserves g
        (edgeObjToId g.isDirected_ _)
      exact ⟨by rw [q1, r1], by rw [q2, r2], by rw [q3, r3]⟩

/-- The `removeEdge` loop of `Graph.removeNode` never touches nodes, parents or
flags (wrapper around the raw fold statement). -/
theorem removeIncidentEdges_preserves (g : Graph) (ks : List String) :
    (g.removeIncidentEdges ks).nodes_ = g.nodes_ ∧
      (g.removeIncidentEdges ks).parent_ = g.parent_ ∧
      (g.removeIncidentEdges ks).isCompound_ = g.isCompound_ :=
  fold_removeEdge_preserves ks g

/-- The in-edge half of `Graph.removeNode` never touches nodes, parents or
flags. -/
theorem removeInPart_preserves (h : Graph) (v : String) :
    (Graph.removeInPart h v).nodes_ = h.nodes_ ∧
      (Graph.removeInPart h v).parent_ = h.parent_ ∧
      (Graph.removeInPart h v).isCompound_ = h.isCompound_ :=
  removeIncidentEdges_preserves h (alKeys ((alGet h.inEdges_ v).getD []))

/-- The out-edge half of `Graph.removeNode` never touches nodes, parents or
flags. -/
theorem removeOutPart_preserves (h : Graph) (v : String) :
    (Graph.removeOutPart h v).nodes_ = h.nodes_ ∧
      (Graph.removeOutPart h v).parent_ = h.parent_ ∧
      (Graph.removeOutPart h v).isCompound_ = h.isCompound_ :=
  removeIncidentEdges_preserves h (alKeys ((alGet h.outEdges_ v).getD []))

/-- Membership of `c ≠ v` in the child set of `v` survives
`_removeFromParentsChildList(v)` (which may only delete `v` itself from one
child set). -/
theorem rfpcl_children_mem (g : Graph) (v c : String) (hne : c ≠ v)
    (h : c ∈ (alGet g.children_ v).getD []) :
    c ∈ (alGet (g.removeFromParentsChildList v).children_ v).getD [] := by
  unfold Graph.removeFromParentsChildList
  split
  next p hp =>
    split
    next cs hcs =>
      show c ∈ (alGet (alSet g.children_ p (jsDel cs v)) v).getD []
      by_cases hpv : p = v
      · subst hpv
        rw [alGet_alSet_self]
        rw [hcs] at h
        simp only [Option.getD_some] at h ⊢
        exact List.mem_filter.mpr ⟨h, by simp [hne]⟩
      · rw [alGet_alSet_ne _ _ _ _ (fun he => hpv he.symm)]
        exact h
    next => exact h
  next => exact h

/-- A `setParent(child)` fold over a list not containing `c` leaves the
parent entry of `c` alone, keeps `c` a node, and preserves the compound
flag. -/
theorem fold_setParentR_none_preserves (cs : List String) (g : Graph)
    (c : String) : c ∉ cs →
    alGet ((cs.foldl (fun a child =>
        (a.setParentR child none).1) g).parent_) c = alGet g.parent_ c ∧
      (g.hasNode c = true →
        (cs.foldl (fun a child =>
          (a.setParentR child none).1) g).hasNode c = true) ∧
      (cs.foldl (fun a child =>
        (a.setParentR child none).1) g).isCompound_ = g.isCompound_ := by
  induction cs generalizing g with
  | nil => exact fun _ => ⟨rfl, fun h => h, rfl⟩
  | cons x xs ih =>
    intro hnotin
    simp only [List.foldl_cons]
    have hcx : c ≠ x := fun he => hnotin (he ▸ List.mem_cons_self x xs)
    have hxs : c ∉ xs := fun hm => hnotin (List.mem_cons_of_mem x hm)
    obtain ⟨s1, s2, s3⟩ := setParentR_none_preserves g x c hcx
    obtain ⟨f1, f2, f3⟩ := ih ((g.setParentR x none).1) hxs
    exact ⟨by rw [f1, s1], fun h => f2 (s2 h), by rw [f3, s3]⟩

/-- The `setParent(child)` fold of `Graph.removeNodeChildren` re-parents every
member of the list to the root sentinel and keeps it a node. -/
theorem fold_setParentR_none_mem (cs : List String) (g : Graph)
    (c : String) : g.isCompound_ = true → c ∈ cs →
    alGet ((cs.foldl (fun a child =>
        (a.setParentR child none).1) g).parent_) c = some GRAPH_NODE ∧
      (cs.foldl (fun a child =>
        (a.setParentR child none).1) g).hasNode c = true ∧
      (cs.foldl (fun a child =>
        (a.setParentR child none).1) g).isCompound_ = true := by
  induction cs generalizing g with
  | nil => exact fun _ h => absurd h (List.not_mem_nil c)
  | cons x xs ih =>
    intro hc hmem
    simp only [List.foldl_cons]
    have hc1 : ((g.setParentR x none).1).isCompound_ = true := by
      rw [setParentR_isCompound]; exact hc
    by_cases hin : c ∈ xs
    · exact ih ((g.setParentR x none).1) hc1 hin
    · have hcx : c = x := by
        rcases List.mem_cons.mp hmem with h | h
        · exact h
        · exact absurd h hin
      subst hcx
      obtain ⟨f1, f2, f3⟩ := fold_setParentR_none_preserves xs
        ((g.setParentR c none).1) c hin
      refine ⟨?_, ?_, ?_⟩
      · rw [f1]; exact setParentR_none_parent_self g c hc
      · exact f2 (setParentR_none_hasNode_self g c hc)
      · rw [f3]; exact hc1

/-- The compound block of `Graph.removeNode` sets the parent entry of every child
`c ≠ v` of `v` to the root sentinel while keeping it a node. -/
theorem removeNodeChildren_spec (g : Graph) (v c : String)
    (hc : g.isCompound_ = true) (hne : c ≠ v)
    (hchild : c ∈ (alGet g.children_ v).getD []) :
    alGet (g.removeNodeChildren v).parent_ c = some GRAPH_NODE ∧
      (g.removeNodeChildren v).hasNode c = true ∧
      (g.removeNodeChildren v).isCompound_ = true := by
  unfold Graph.removeNodeChildren
  rw [if_pos hc]
  have hB : ({ g.removeFromParentsChildList v with
      parent_ := alDel (g.removeFromParentsChildList v).parent_ v
        }).isCompound_ = true := by
    show (g.removeFromParentsChildList v).isCompound_ = true
    rw [(rfpcl_fields g v).2.2]; exact hc
  have hmem := rfpcl_children_mem g v c hne hchild
  exact fold_setParentR_none_mem _ _ c hB hmem

/-- C2 (amended): in a compound graph, removing a node keeps each of its
children as a node and re-parents it to the root — `parent(c)` becomes
`undefined` — because `Graph.removeNode` calls `setParent(child)` with no parent
argument (not the removed node's own parent). -/
theorem C2_removeNode_reparents_children_to_root (g : Graph) (v c : String)
    (hc : g.isCompound = true) (hv : g.hasNode v = true)
    (hchild : c ∈ (g.children v).getD []) (hne : c ≠ v) :
    (g.removeNode v).hasNode c = true ∧
      (g.removeNode v).parent c = none := by
  have hc' : g.isCompound_ = true := hc
  have hv' : alHas g.nodes_ v = true := hv
  have hchild' : c ∈ (alGet g.children_ v).getD [] := by
    unfold Graph.children at hchild
    rw [if_pos hc'] at hchild
    exact hchild
  obtain ⟨p1, p2, p3⟩ := removeNodeChildren_spec
    { g with nodes_ := alDel g.nodes_ v } v c hc' hne hchild'
  obtain ⟨i1, i2, i3⟩ := removeInPart_preserves
    (Graph.removeNodeChildren { g with nodes_ := alDel g.nodes_ v } v) v
  obtain ⟨o1, o2, o3⟩ := removeOutPart_preserves
    (Graph.removeInPart
      (Graph.removeNodeChildren { g with nodes_ := alDel g.nodes_ v } v) v) v
  unfold Graph.removeNode
  rw [if_pos hv']
  constructor
  · show alHas (Graph.removeOutPart (Graph.removeInPart
      (Graph.removeNodeChildren { g with nodes_ := alDel g.nodes_ v } v) v)
        v).nodes_ c = true
    rw [o1, i1]
    exact p2
  · unfold Graph.parent
    rw [o3, i3, p3, if_pos rfl, o2, i2, p1]
    simp

/-- Closed instance of the amended C2 theorem: removing `b` from the
compound graph with parent chain c → b → a keeps `c` and re-parents it to
the root. -/
theorem C2_removeNode_reparents_children_to_root_witness :
    (compoundCBA.isCompound = true ∧ compoundCBA.hasNode "b" = true ∧
        "c" ∈ (compoundCBA.children "b").getD [] ∧ "c" ≠ "b") ∧
      ((compoundCBA.removeNode "b").hasNode "c" = true ∧
        (compoundCBA.removeNode "b").parent "c" = none) :=
  ⟨⟨by decide, by decide, by decide, by decide⟩,
    C2_removeNode_reparents_children_to_root compoundCBA "b" "c"
      (by decide) (by decide) (by decide) (by decide)⟩

/-- C2 is falsified by the code: in the compound graph with parent chain
c → b → a, after `removeNode("b")` the child `c` is still a node but its
parent is `undefined` (re-parented to the root by `setParent(child)` with no
second argument), not `b`'s own parent `a` as the claim states. -/
theorem C2_counterexample_child_reparented_to_root :
    compoundCBA.parent "b" = some "a" ∧
      (compoundCBA.children "b") = some ["c"] ∧
      (compoundCBA.removeNode "b").hasNode "c" = true ∧
      (compoundCBA.removeNode "b").parent "c" = none ∧
      (compoundCBA.removeNode "b").parent "c" ≠ some "a" := by
  decide

/-! ### C6 -/

/-- Transport of the counter invariant along equality of the tracked
fields. -/
theorem countInvAux_congr {g h : Graph} {dn de : Int}
    (h1 : h.nodes_ = g.nodes_) (h2 : h.edgeObjs_ = g.edgeObjs_)
    (h3 : h.edgeLabels_ = g.edgeLabels_) (h4 : h.nodeCount_ = g.nodeCount_)
    (h5 : h.edgeCount_ = g.edgeCount_) (hg : CountInvAux g dn de) :
    CountInvAux h dn de := by
  obtain ⟨a, b, c, d, hce⟩ := hg
  refine ⟨?_, ?_, ?_, ?_, ?_⟩
  · rw [h1, h4]; exact a
  · rw [h2, h5]; exact b
  · rw [h1]; exact c
  · rw [h2]; exact d
  · intro x; rw [h2, h3]; exact hce x

/-- A fold of invariant-preserving mutations preserves the invariant. -/
theorem countInvAux_foldl {α : Type} (f : Graph → α → Graph)
    (hf : ∀ (c : Graph) (x : α) (dn de : Int),
      CountInvAux c dn de → CountInvAux (f c x) dn de)
    (xs : List α) (c : Graph) (dn de : Int) (h : CountInvAux c dn de) :
    CountInvAux (xs.foldl f c) dn de := by
  induction xs generalizing c with
  | nil => exact h
  | cons x xs ih => exact ih (f c x) (hf c x dn de h)

/-- An error-propagating fold of invariant-preserving fallible mutations
preserves the invariant of the returned state. -/
theorem countInvAux_foldE {α : Type} (f : Graph → α → Graph × Option GErr)
    (hf : ∀ (c : Graph) (x : α) (dn de : Int),
      CountInvAux c dn de → CountInvAux (f c x).1 dn de)
    (xs : List α) (c : Graph) (dn de : Int) (h : CountInvAux c dn de) :
    CountInvAux (Graph.foldE f xs c).1 dn de := by
  induction xs generalizing c with
  | nil => exact h
  | cons x xs ih =>
    unfold Graph.foldE
    have hstep := hf c x dn de h
    cases hE : f c x with
    | mk c' oe =>
      rw [hE] at hstep
      cases oe with
      | none => exact ih c' hstep
      | some err => exact hstep

/-- `setNode` never changes the edge count. -/
theorem setNode_edgeCount (g : Graph) (u : String)
    (val : Option (Option String)) :
    (g.setNode u val).edgeCount_ = g.edgeCount_ := by
  unfold Graph.setNode
  by_cases h : alHas g.nodes_ u <;> cases val <;> simp [h]

/-- `_removeFromParentsChildList` keeps the node map, the edge maps and both
counters. -/
theorem rfpcl_count_fields (g : Graph) (v : String) :
    (g.removeFromParentsChildList v).nodes_ = g.nodes_ ∧
      (g.removeFromParentsChildList v).edgeObjs_ = g.edgeObjs_ ∧
      (g.removeFromParentsChildList v).edgeLabels_ = g.edgeLabels_ ∧
      (g.removeFromParentsChildList v).nodeCount_ = g.nodeCount_ ∧
      (g.removeFromParentsChildList v).edgeCount_ = g.edgeCount_ := by
  unfold Graph.removeFromParentsChildList
  split <;> (try split) <;> exact ⟨rfl, rfl, rfl, rfl, rfl⟩

/-- `setNode` preserves the counter invariant: an existing id only updates
its value in place; a new id appends one entry and increments the node
counter. -/
theorem countInvAux_setNode (g : Graph) (v : String)
    (val : Option (Option String)) (dn de : Int)
    (h : CountInvAux g dn de) : CountInvAux (g.setNode v val) dn de := by
  obtain ⟨a, b, c, d, hce⟩ := h
  unfold Graph.setNode
  by_cases hn : alHas g.nodes_ v
  · rw [if_pos hn]
    cases val with
    | none => exact ⟨a, b, c, d, hce⟩
    | some l =>
      refine ⟨?_, b, alKeys_nodup_alSet _ _ _ c, d, hce⟩
      show g.nodeCount_ = ((alSet g.nodes_ v l).length : Int) + dn
      rw [length_alSet_of_has _ _ _ hn]
      exact a
  · rw [if_neg hn]
    have hn' : alHas g.nodes_ v = false := by
      cases hh : alHas g.nodes_ v
      · rfl
      · exact absurd hh hn
    refine ⟨?_, b, alKeys_nodup_alSet _ _ _ c, d, hce⟩
    show g.nodeCount_ + 1 =
      ((alSet g.nodes_ v (val.getD (g.defaultNodeLabelFn v))).length : Int)
        + dn
    rw [length_alSet_of_not_has _ _ _ hn']
    push_cast
    omega

/-- `setNode` with a real id preserves the counter invariant; the
`null`/`undefined` throw returns the receiver. -/
theorem countInvAux_setNodeR (g : Graph) (v : Option String)
    (val : Option (Option String)) (dn de : Int)
    (h : CountInvAux g dn de) : CountInvAux (g.setNodeR v val).1 dn de := by
  cases v with
  | none => exact h
  | some v => exact countInvAux_setNode g v val dn de h

/-- `setNodes` preserves the counter invariant. -/
theorem countInvAux_setNodes (g : Graph) (vs : List String)
    (val : Option (Option String)) (dn de : Int)
    (h : CountInvAux g dn de) : CountInvAux (g.setNodes vs val) dn de := by
  unfold Graph.setNodes
  exact countInvAux_foldl _
    (fun c x dn' de' hh => countInvAux_setNode c x val dn' de' hh)
    vs g dn de h

/-- `setEdge` preserves the counter invariant: an existing edge id only
updates its label; a new edge appends one object and one label entry and
increments the edge counter (after `setNode`-ing both endpoints). -/
theorem countInvAux_setEdgeR (g : Graph) (v w : String)
    (val : Option (Option String)) (name : Option String) (dn de : Int)
    (h : CountInvAux g dn de) :
    CountInvAux (g.setEdgeR v w val name).1 dn de := by
  obtain ⟨a, b, c, d, hce⟩ := h
  simp only [Graph.setEdgeR]
  by_cases hl : alHas g.edgeLabels_ (edgeArgsToId g.isDirected_ v w name)
  · rw [if_pos hl]
    cases val with
    | none => exact ⟨a, b, c, d, hce⟩
    | some l =>
      refine ⟨a, b, c, d, ?_⟩
      intro x
      show alHas g.edgeObjs_ x =
        alHas (alSet g.edgeLabels_ (edgeArgsToId g.isDirected_ v w name) l) x
      by_cases hx : x = edgeArgsToId g.isDirected_ v w name
      · subst hx
        rw [alHas_alSet_self, hce (edgeArgsToId g.isDirected_ v w name)]
        exact hl
      · rw [alHas_alSet_ne _ _ _ _ hx]
        exact hce x
  · rw [if_neg hl]
    have hl' : alHas g.edgeLabels_ (edgeArgsToId g.isDirected_ v w name)
        = false := by
      cases hh : alHas g.edgeLabels_ (edgeArgsToId g.isDirected_ v w name)
      · rfl
      · exact absurd hh hl
    have hobj : alHas g.edgeObjs_ (edgeArgsToId g.isDirected_ v w name)
        = false := by rw [hce _]; exact hl'
    by_cases hnm : (name.isSome && !g.isMultigraph_) = true
    · rw [if_pos hnm]
      exact ⟨a, b, c, d, hce⟩
    · rw [if_neg hnm]
      obtain ⟨a1, b1, c1, d1, e1⟩ :=
        countInvAux_setNode (g.setNode v none) w none dn de
          (countInvAux_setNode g v none dn de ⟨a, b, c, d, hce⟩)
      have hg1o : ((g.setNode v none).setNode w none).edgeObjs_
          = g.edgeObjs_ := by
        rw [(setNode_edgeObjs _ _ _).1, (setNode_edgeObjs _ _ _).1]
      have hg1l : ((g.setNode v none).setNode w none).edgeLabels_
          = g.edgeLabels_ := by
        rw [(setNode_edgeObjs _ _ _).2, (setNode_edgeObjs _ _ _).2]
      have hg1c : ((g.setNode v none).setNode w none).edgeCount_
          = g.edgeCount_ := by
        rw [setNode_edgeCount, setNode_edgeCount]
      refine ⟨a1, ?_, c1, ?_, ?_⟩
      · show ((g.setNode v none).setNode w none).edgeCount_ + 1 =
          ((alSet ((g.setNode v none).setNode w none).edgeObjs_
            (edgeArgsToId g.isDirected_ v w name)
            (edgeArgsToObj g.isDirected_ v w name)).length : Int) + de
        rw [hg1c, hg1o, length_alSet_of_not_has _ _ _ hobj]
        push_cast
        omega
      · show (alKeys (alSet ((g.setNode v none).setNode w none).edgeObjs_
          (edgeArgsToId g.isDirected_ v w name)
          (edgeArgsToObj g.isDirected_ v w name))).Nodup
        rw [hg1o]
        exact alKeys_nodup_alSet _ _ _ d
      · intro x
        show alHas (alSet ((g.setNode v none).setNode w none).edgeObjs_
            (edgeArgsToId g.isDirected_ v w name)
            (edgeArgsToObj g.isDirected_ v w name)) x =
          alHas (alSet ((g.setNode v none).setNode w none).edgeLabels_
            (edgeArgsToId g.isDirected_ v w name)
            (val.getD (g.defaultEdgeLabelFn v w name))) x
        rw [hg1o, hg1l]
        by_cases hx : x = edgeArgsToId g.isDirected_ v w name
        · subst hx
          rw [alHas_alSet_self, alHas_alSet_self]
        · rw [alHas_alSet_ne _ _ _ _ hx, alHas_alSet_ne _ _ _ _ hx]
          exact hce x

/-- The descriptor overload of `setEdge` preserves the counter invariant. -/
theorem countInvAux_setEdgeObjR (g : Graph) (e : Edge) (val : Option String)
    (dn de : Int) (h : CountInvAux g dn de) :
    CountInvAux (g.setEdgeObjR e val).1 dn de :=
  countInvAux_setEdgeR g e.v e.w (some val) e.name dn de h

/-- `setPath` preserves the counter invariant along the `reduce` chain. -/
theorem countInvAux_setPathGo (rest : List String) (g : Graph) (v : String)
    (val : Option (Option String)) (dn de : Int)
    (h : CountInvAux g dn de) :
    CountInvAux (Graph.setPathGo g v rest val).1 dn de := by
  induction rest generalizing g v with
  | nil => exact h
  | cons w rest ih =>
    unfold Graph.setPathGo
    have hstep := countInvAux_setEdgeR g v w val none dn de h
    cases hE : g.setEdgeR v w val none with
    | mk g' oe =>
      rw [hE] at hstep
      cases oe with
      | none => exact ih g' w hstep
      | some err => exact hstep

/-- `setPath` preserves the counter invariant (the empty-array throw returns
the receiver). -/
theorem countInvAux_setPathR (g : Graph) (vs : List String)
    (val : Option (Option String)) (dn de : Int)
    (h : CountInvAux g dn de) : CountInvAux (g.setPathR vs val).1 dn de := by
  cases vs with
  | nil => exact h
  | cons v rest => exact countInvAux_setPathGo rest g v val dn de h

/-- `removeEdge` (by id) preserves the counter invariant: a hit deletes one
entry from both edge maps and decrements the counter; a miss is a no-op. -/
theorem countInvAux_removeEdgeId (g : Graph) (e : String) (dn de : Int)
    (h : CountInvAux g dn de) : CountInvAux (g.removeEdgeId e) dn de := by
  obtain ⟨a, b, c, d, hce⟩ := h
  unfold Graph.removeEdgeId
  split
  next ed hk =>
    have hhas : alHas g.edgeObjs_ e = true := by
      simp [alHas, hk]
    refine ⟨a, ?_, c, alKeys_nodup_alDel _ _ d, ?_⟩
    · show g.edgeCount_ - 1 = ((alDel g.edgeObjs_ e).length : Int) + de
      have hlen := length_alDel_of_has g.edgeObjs_ e d hhas
      omega
    · intro x
      show alHas (alDel g.edgeObjs_ e) x = alHas (alDel g.edgeLabels_ e) x
      by_cases hx : x = e
      · subst hx
        simp [alHas, alGet_alDel_self]
      · simp only [alHas]
        rw [alGet_alDel_ne _ _ _ hx, alGet_alDel_ne _ _ _ hx]
        exact hce x
  next => exact ⟨a, b, c, d, hce⟩

/-- `removeEdge(v, w, name)` preserves the counter invariant. -/
theorem countInvAux_removeEdge (g : Graph) (v w : String)
    (name : Option String) (dn de : Int) (h : CountInvAux g dn de) :
    CountInvAux (g.removeEdge v w name) dn de :=
  countInvAux_removeEdgeId g (edgeArgsToId g.isDirected_ v w name) dn de h

/-- `removeEdge(edgeObj)` preserves the counter invariant. -/
theorem countInvAux_removeEdgeObj (g : Graph) (e : Edge) (dn de : Int)
    (h : CountInvAux g dn de) : CountInvAux (g.removeEdgeObj e) dn de :=
  countInvAux_removeEdgeId g (edgeObjToId g.isDirected_ e) dn de h

/-- The incident-edge-removal loop of `removeNode` preserves the counter
invariant. -/
theorem countInvAux_removeIncidentEdges (g : Graph) (ks : List String)
    (dn de : Int) (h : CountInvAux g dn de) :
    CountInvAux (g.removeIncidentEdges ks) dn de := by
  unfold Graph.removeIncidentEdges
  refine countInvAux_foldl _ ?_ ks g dn de h
  intro c x dn' de' hh
  cases hk : alGet c.edgeObjs_ x with
  | none => exact hh
  | some eo => exact countInvAux_removeEdgeObj c eo dn' de' hh

/-- `setParent` preserves the counter invariant: both throws return the
receiver; the mutation path only runs `setNode` plus parent/children map
edits, which are not tracked by the invariant. -/
theorem countInvAux_setParentR (g : Graph) (v : String) (p : Option String)
    (dn de : Int) (h : CountInvAux g dn de) :
    CountInvAux (g.setParentR v p).1 dn de := by
  by_cases hcc : g.isCompound_
  · cases p with
    | none =>
      rw [setParentR_none_eq g v hcc]
      refine countInvAux_congr ?_ ?_ ?_ ?_ ?_
        (countInvAux_setNode g v none dn de h)
      · exact (rfpcl_count_fields (g.setNode v none) v).1
      · exact (rfpcl_count_fields (g.setNode v none) v).2.1
      · exact (rfpcl_count_fields (g.setNode v none) v).2.2.1
      · exact (rfpcl_count_fields (g.setNode v none) v).2.2.2.1
      · exact (rfpcl_count_fields (g.setNode v none) v).2.2.2.2
    | some pr =>
      cases hA : Graph.ancestorCheck g v pr (g.parent_.length + 1) with
      | some err =>
        have heq : g.setParentR v (some pr) = (g, some err) := by
          simp [Graph.setParentR, hcc, hA]
        rw [heq]
        exact h
      | none =>
        have heq : (g.setParentR v (some pr)).1 =
            { ((g.setNode pr none).setNode v none).removeFromParentsChildList
                v with
              parent_ := alSet (((g.setNode pr
                none).setNode v none).removeFromParentsChildList v).parent_
                v pr
              children_ := alSet (((g.setNode pr
                none).setNode v none).removeFromParentsChildList v).children_
                pr
                (jsAdd ((alGet (((g.setNode pr
                  none).setNode v none).removeFromParentsChildList
                    v).children_ pr).getD []) v) } := by
          simp [Graph.setParentR, hcc, hA]
        rw [heq]
        refine countInvAux_congr ?_ ?_ ?_ ?_ ?_
          (countInvAux_setNode (g.setNode pr none) v none dn de
            (countInvAux_setNode g pr none dn de h))
        · exact (rfpcl_count_fields ((g.setNode pr none).setNode v none) v).1
        · exact
            (rfpcl_count_fields ((g.setNode pr none).setNode v none) v).2.1
        · exact
            (rfpcl_count_fields ((g.setNode pr none).setNode v none) v).2.2.1
        · exact (rfpcl_count_fields
            ((g.setNode pr none).setNode v none) v).2.2.2.1
        · exact (rfpcl_count_fields
            ((g.setNode pr none).setNode v none) v).2.2.2.2
  · have heq : g.setParentR v p =
        (g, some (.error "Cannot set parent in a non-compound graph")) := by
      simp [Graph.setParentR, hcc]
    rw [heq]
    exact h

/-- The compound block of `removeNode` preserves the counter invariant (it
touches only the parent and children maps, via `setParent`). -/
theorem countInvAux_removeNodeChildren (g : Graph) (v : String)
    (dn de : Int) (h : CountInvAux g dn de) :
    CountInvAux (g.removeNodeChildren v) dn de := by
  unfold Graph.removeNodeChildren
  by_cases hc : g.isCompound_
  · rw [if_pos hc]
    refine countInvAux_congr rfl rfl rfl rfl rfl
      (countInvAux_foldl _
        (fun c x dn' de' hh => countInvAux_setParentR c x none dn' de' hh)
        _ _ dn de
        (countInvAux_congr (g := g) ?_ ?_ ?_ ?_ ?_ h))
    · exact (rfpcl_count_fields g v).1
    · exact (rfpcl_count_fields g v).2.1
    · exact (rfpcl_count_fields g v).2.2.1
    · exact (rfpcl_count_fields g v).2.2.2.1
    · exact (rfpcl_count_fields g v).2.2.2.2
  · rw [if_neg hc]
    exact h

/-- `removeNode` preserves the counter invariant: deleting the (present,
unique) node entry first puts the state at offset `dn + 1`, the child and
incident-edge clean-up keeps it there, and the final decrement restores
offset `dn`. -/
theorem countInvAux_removeNode (g : Graph) (v : String) (dn de : Int)
    (h : CountInvAux g dn de) : CountInvAux (g.removeNode v) dn de := by
  unfold Graph.removeNode
  by_cases hv : alHas g.nodes_ v
  · rw [if_pos hv]
    obtain ⟨a, b, c, d, hce⟩ := h
    have h0 : CountInvAux { g with nodes_ := alDel g.nodes_ v }
        (dn + 1) de := by
      refine ⟨?_, b, alKeys_nodup_alDel _ _ c, d, hce⟩
      show g.nodeCount_ = ((alDel g.nodes_ v).length : Int) + (dn + 1)
      have hlen := length_alDel_of_has g.nodes_ v c hv
      omega
    have h1 := countInvAux_removeNodeChildren
      { g with nodes_ := alDel g.nodes_ v } v (dn + 1) de h0
    have h2 : CountInvAux (Graph.removeInPart
        (Graph.removeNodeChildren { g with nodes_ := alDel g.nodes_ v } v)
        v) (dn + 1) de := by
      unfold Graph.removeInPart
      exact countInvAux_congr rfl rfl rfl rfl rfl
        (countInvAux_removeIncidentEdges _ _ (dn + 1) de h1)
    obtain ⟨a5, b5, c5, d5, e5⟩ := countInvAux_removeIncidentEdges
      (Graph.removeInPart
        (Graph.removeNodeChildren { g with nodes_ := alDel g.nodes_ v } v)
        v)
      (alKeys ((alGet (Graph.removeInPart
        (Graph.removeNodeChildren { g with nodes_ := alDel g.nodes_ v } v)
        v).outEdges_ v).getD [])) (dn + 1) de h2
    unfold Graph.removeOutPart
    refine ⟨?_, b5, c5, d5, e5⟩
    show (Graph.removeIncidentEdges
        (Graph.removeInPart
          (Graph.removeNodeChildren { g with nodes_ := alDel g.nodes_ v } v)
          v)
        (alKeys ((alGet (Graph.removeInPart
          (Graph.removeNodeChildren { g with nodes_ := alDel g.nodes_ v } v)
          v).outEdges_ v).getD []))).nodeCount_ - 1 =
      (((Graph.removeIncidentEdges
        (Graph.removeInPart
          (Graph.removeNodeChildren { g with nodes_ := alDel g.nodes_ v } v)
          v)
        (alKeys ((alGet (Graph.removeInPart
          (Graph.removeNodeChildren { g with nodes_ := alDel g.nodes_ v } v)
          v).outEdges_ v).getD []))).nodes_.length : Int)) + dn
    omega
  · rw [if_neg hv]
    exact h

/-- `filterNodes` preserves the public counter invariant: an inner throw
returns the receiver; otherwise the copy is built from a fresh graph by
`setNode`, `setEdge` and `setParent` calls, each of which preserves it. -/
theorem countInv_filterNodesR (g : Graph) (pred : String → Bool)
    (h : CountInv g) : CountInv (g.filterNodesR pred).1 := by
  have hnew : CountInvAux
      { Graph.new g.isDirected_ g.isMultigraph_ g.isCompound_ with
        label_ := g.label_ } 0 0 :=
    ⟨rfl, rfl, List.nodup_nil, List.nodup_nil, fun _ => rfl⟩
  have hcopy1 : CountInvAux
      (g.nodes_.foldl
        (fun c p => if pred p.1 then c.setNode p.1 (some p.2) else c)
        { Graph.new g.isDirected_ g.isMultigraph_ g.isCompound_ with
          label_ := g.label_ }) 0 0 := by
    refine countInvAux_foldl _ ?_ g.nodes_ _ 0 0 hnew
    intro c x dn' de' hh
    by_cases hp : pred x.1
    · rw [if_pos hp]
      exact countInvAux_setNode c x.1 (some x.2) dn' de' hh
    · rw [if_neg hp]
      exact hh
  have hcopy2 := countInvAux_foldE
    (fun c e =>
      if c.hasNode e.v && c.hasNode e.w then
        c.setEdgeObjR e ((alGet g.edgeLabels_
          (edgeObjToId g.isDirected_ e)).getD none)
      else (c, none))
    (fun c e dn' de' hh => by
      show CountInvAux
        (if c.hasNode e.v && c.hasNode e.w then
          c.setEdgeObjR e ((alGet g.edgeLabels_
            (edgeObjToId g.isDirected_ e)).getD none)
        else (c, none)).1 dn' de'
      by_cases hvw : (c.hasNode e.v && c.hasNode e.w) = true
      · rw [if_pos hvw]
        exact countInvAux_setEdgeObjR c e _ dn' de' hh
      · rw [if_neg hvw]
        exact hh)
    (alValues g.edgeObjs_) _ 0 0 hcopy1
  simp only [Graph.filterNodesR]
  split
  next copy2x err heq =>
    exact h
  next copy2 heq =>
    rw [heq] at hcopy2
    by_cases hc : g.isCompound_
    · rw [if_pos hc]
      have hcopy3 := countInvAux_foldE
        (fun c x =>
          c.setParentR x (Graph.findParent g c (g.parent_.length + 1) x))
        (fun c x dn' de' hh =>
          countInvAux_setParentR c x
            (Graph.findParent g c (g.parent_.length + 1) x) dn' de' hh)
        copy2.nodes copy2 0 0 hcopy2
      split
      next copy3 heq2 =>
        rw [heq2] at hcopy3
        exact hcopy3
      next copy3x err2 heq2 =>
        exact h
    · rw [if_neg hc]
      exact hcopy2

/-- Every graph reachable by the public mutators satisfies the counter
invariant. -/
theorem countInv_reachable (g : Graph) (h : Reachable g) : CountInv g := by
  induction h with
  | new d m c =>
    exact ⟨rfl, rfl, List.nodup_nil, List.nodup_nil, fun _ => rfl⟩
  | setNodeR g v val _ ih => exact countInvAux_setNodeR g v val 0 0 ih
  | setNodes g vs val _ ih => exact countInvAux_setNodes g vs val 0 0 ih
  | setEdgeR g v w val name _ ih =>
    exact countInvAux_setEdgeR g v w val name 0 0 ih
  | setEdgeObjR g e val _ ih => exact countInvAux_setEdgeObjR g e val 0 0 ih
  | setPathR g vs val _ ih => exact countInvAux_setPathR g vs val 0 0 ih
  | setParentR g v p _ ih => exact countInvAux_setParentR g v p 0 0 ih
  | removeNode g v _ ih => exact countInvAux_removeNode g v 0 0 ih
  | removeEdge g v w name _ ih =>
    exact countInvAux_removeEdge g v w name 0 0 ih
  | removeEdgeObj g e _ ih => exact countInvAux_removeEdgeObj g e 0 0 ih
  | filterNodesR g pred _ ih => exact countInv_filterNodesR g pred ih

/-- C6: after every finite sequence of the public mutators (`setNode`,
`setNodes`, `setEdge`, `setPath`, `setParent`, `removeNode`, `removeEdge`,
`filterNodes`) applied to a constructed graph, `nodeCount()` equals the
length of `nodes()` and `edgeCount()` equals the length of `edges()`. -/
theorem C6_counts_equal_collection_sizes (g : Graph) (h : Reachable g) :
    g.nodeCount = ((g.nodes).length : Int) ∧
      g.edgeCount = ((g.edges).length : Int) := by
  obtain ⟨a, b, _, _, _⟩ := countInv_reachable g h
  constructor
  · show g.nodeCount_ = ((alKeys g.nodes_).length : Int)
    rw [length_alKeys]
    omega
  · show g.edgeCount_ = ((alValues g.edgeObjs_).length : Int)
    rw [length_alValues]
    omega

/-- Closed instance of C6 on the reachable path graph
`setPath(["b","c","a"])`. -/
theorem C6_counts_equal_collection_sizes_witness :
    Reachable pathGraphBCA ∧
      (pathGraphBCA.nodeCount = ((pathGraphBCA.nodes).length : Int) ∧
        pathGraphBCA.edgeCount = ((pathGraphBCA.edges).length : Int)) :=
  ⟨Reachable.setPathR (Graph.new true false false) ["b", "c", "a"] none
      (Reachable.new true false false),
    C6_counts_equal_collection_sizes pathGraphBCA
      (Reachable.setPathR (Graph.new true false false) ["b", "c", "a"] none
        (Reachable.new true false false))⟩

/-! ### C4 -/

/-- Deleting the fresh top of the stack restores the stack below it. -/
theorem jsDel_cons_of_not_mem {x : String} {l : List String}
    (h : x ∉ l) : jsDel (x :: l) x = l := by
  unfold jsDel
  rw [List.filter_cons]
  rw [if_neg (by simp)]
  exact List.filter_eq_self.mpr (fun a ha => by
    simp only [decide_eq_true_eq]
    exact fun he => h (he ▸ ha))

/-- Splitting a list extended by one element at an occurrence: the
occurrence is either the appended element or lies in the original list. -/
theorem append_singleton_split {α : Type} (l pre post : List α) (x y : α)
    (h : l ++ [x] = pre ++ y :: post) :
    (pre = l ∧ y = x ∧ post = []) ∨
      ∃ post0, post = post0 ++ [x] ∧ l = pre ++ y :: post0 := by
  rcases List.eq_nil_or_concat post with hpost | ⟨q, z, hpost⟩
  · subst hpost
    have h2 := List.append_inj' h rfl
    exact Or.inl ⟨h2.1.symm, (by simpa using h2.2.symm), rfl⟩
  · subst hpost
    rw [List.concat_eq_append] at h
    have h3 : l ++ [x] = (pre ++ y :: q) ++ [z] := by
      simpa using h
    have h2 := List.append_inj' h3 rfl
    have hxz : x = z := by simpa using h2.2
    exact Or.inr ⟨q, by rw [hxz, List.concat_eq_append], h2.1⟩

/-- `indexOf` of the marked occurrence in a split list. -/
theorem indexOf_split_self (pre post : List String) (y : String)
    (hy : y ∉ pre) : (pre ++ y :: post).indexOf y = pre.length := by
  induction pre with
  | nil => simp
  | cons a pre ih =>
    have hay : a ≠ y := fun he => hy (by
      rw [← he]
      exact List.mem_cons_self a pre)
    have h2 := ih (fun hm => hy (List.mem_cons_of_mem a hm))
    simp only [List.cons_append, List.length_cons]
    rw [List.indexOf_cons_ne _ hay, h2]

/-- `indexOf` of an element of the left part of an append stays below the
length of that part. -/
theorem indexOf_append_left_lt (pre rest : List String) (p : String)
    (hp : p ∈ pre) : (pre ++ rest).indexOf p < pre.length := by
  induction pre with
  | nil => simp at hp
  | cons a pre ih =>
    by_cases hpa : p = a
    · subst hpa
      simp [List.indexOf_cons_self]
    · have h2 := ih (by
        rcases List.mem_cons.mp hp with h | h
        · exact absurd h hpa
        · exact h)
      have hap : a ≠ p := fun he => hpa he.symm
      simp only [List.cons_append, List.length_cons]
      rw [List.indexOf_cons_ne _ hap]
      omega

/-- The closed-before invariant, as membership: predecessors of a closed
node are closed. -/
theorem bClosed_mem (g : Graph) (res : List String)
    (hB : ∀ pre y post, res = pre ++ y :: post → ∀ p ∈ predsOf g y, p ∈ pre)
    (y p : String) (hy : y ∈ res) (hp : p ∈ predsOf g y) : p ∈ res := by
  obtain ⟨s, t, hst⟩ := List.append_of_mem hy
  have := hB s y t hst p hp
  rw [hst]
  exact List.mem_append.mpr (Or.inl this)

/-- The closed-before invariant, as index order: a predecessor of a closed
node has a strictly smaller index. -/
theorem bClosed_indexOf (g : Graph) (res : List String)
    (hnd : res.Nodup)
    (hB : ∀ pre y post, res = pre ++ y :: post → ∀ p ∈ predsOf g y, p ∈ pre)
    (y p : String) (hy : y ∈ res) (hp : p ∈ predsOf g y) :
    res.indexOf p < res.indexOf y := by
  obtain ⟨s, t, hst⟩ := List.append_of_mem hy
  have hpmem := hB s y t hst p hp
  have hynotin : y ∉ s := by
    intro hys
    rw [hst] at hnd
    exact (List.disjoint_of_nodup_append hnd) hys
      (List.mem_cons_self y t)
  rw [hst, indexOf_split_self s t y hynotin]
  exact indexOf_append_left_lt s (y :: t) p hpmem

/-- Pushing a fresh node keeps the visit invariant. -/
theorem tsInv_push (g : Graph) (st : TS) (x : String)
    (hxv : x ∉ st.visited) (hxs : x ∉ st.stack) (h : TSInv g st) :
    TSInv g ⟨x :: st.visited, x :: st.stack, st.results⟩ := by
  obtain ⟨hA, hE, hndv, hndr, hB⟩ := h
  have hxr : x ∉ st.results := fun hr => hxv ((hA x).mpr (Or.inl hr))
  refine ⟨?_, ?_, List.nodup_cons.mpr ⟨hxv, hndv⟩, hndr, hB⟩
  · intro y
    constructor
    · intro hy
      rcases List.mem_cons.mp hy with h | h
      · exact Or.inr (by rw [h]; exact List.mem_cons_self x st.stack)
      · rcases (hA y).mp h with h | h
        · exact Or.inl h
        · exact Or.inr (List.mem_cons_of_mem x h)
    · intro hy
      rcases hy with h | h
      · exact List.mem_cons_of_mem x ((hA y).mpr (Or.inl h))
      · rcases List.mem_cons.mp h with h | h
        · rw [h]; exact List.mem_cons_self x st.visited
        · exact List.mem_cons_of_mem x ((hA y).mpr (Or.inr h))
  · intro y hy
    rcases List.mem_cons.mp hy.2 with h | h
    · exact hxr (by rw [← h]; exact hy.1)
    · exact hE y ⟨hy.1, h⟩

/-- Closing the top of the stack keeps the visit invariant, provided its
predecessor worklist has completed (all predecessors visited, none left on
the stack). -/
theorem tsInv_pop (g : Graph) (st2 : TS) (x : String) (s0 : List String)
    (hstk : st2.stack = x :: s0) (hxs0 : x ∉ s0)
    (hpv : ∀ p ∈ predsOf g x, p ∈ st2.visited)
    (hps : ∀ p ∈ predsOf g x, p ∉ st2.stack)
    (h : TSInv g st2) :
    TSInv g ⟨st2.visited, jsDel st2.stack x, st2.results ++ [x]⟩ ∧
      jsDel st2.stack x = s0 := by
  obtain ⟨hA, hE, hndv, hndr, hB⟩ := h
  have hdel : jsDel st2.stack x = s0 := by
    rw [hstk]; exact jsDel_cons_of_not_mem hxs0
  have hxstk : x ∈ st2.stack := by
    rw [hstk]; exact List.mem_cons_self x s0
  have hxres : x ∉ st2.results := fun hr => hE x ⟨hr, hxstk⟩
  refine ⟨⟨?_, ?_, hndv, ?_, ?_⟩, hdel⟩
  · intro y
    show y ∈ st2.visited ↔
      y ∈ st2.results ++ [x] ∨ y ∈ jsDel st2.stack x
    rw [hdel]
    constructor
    · intro hy
      rcases (hA y).mp hy with h | h
      · exact Or.inl (List.mem_append.mpr (Or.inl h))
      · rw [hstk] at h
        rcases List.mem_cons.mp h with h | h
        · exact Or.inl (List.mem_append.mpr (Or.inr (by
            rw [h]; exact List.mem_singleton_self x)))
        · exact Or.inr h
    · intro hy
      rcases hy with h | h
      · rcases List.mem_append.mp h with h | h
        · exact (hA y).mpr (Or.inl h)
        · have hyx : y = x := List.mem_singleton.mp h
          exact (hA y).mpr (Or.inr (by
            rw [hstk, hyx]; exact List.mem_cons_self x s0))
      · exact (hA y).mpr (Or.inr (by
          rw [hstk]; exact List.mem_cons_of_mem x h))
  · intro y hy
    have hy2 : y ∈ jsDel st2.stack x := hy.2
    rw [hdel] at hy2
    rcases List.mem_append.mp hy.1 with h | h
    · exact hE y ⟨h, by rw [hstk]; exact List.mem_cons_of_mem x hy2⟩
    · have hyx : y = x := List.mem_singleton.mp h
      exact hxs0 (by rw [← hyx]; exact hy2)
  · show (st2.results ++ [x]).Nodup
    rw [List.nodup_append]
    exact ⟨hndr, List.nodup_singleton x,
      fun a ha hb => hxres (by
        rw [← List.mem_singleton.mp hb]; exact ha)⟩
  · intro pre y post hsplit p hp
    rcases append_singleton_split st2.results pre post x y hsplit with
      ⟨hpre, hyx, hpost⟩ | ⟨post0, hpost, hres⟩
    · subst hyx
      rw [hpre]
      rcases (hA p).mp (hpv p hp) with h | h
      · exact h
      · exact absurd h (hps p hp)
    · exact hB pre y post0 hres p hp

/-- Master lemma for successful `tsVisit` runs: the invariant is preserved,
the stack is restored, `visited` grows monotonically and stays inside the
node set, every worklist entry ends up visited, and no worklist entry was on
the entry stack. -/
theorem tsVisit_ok (g : Graph) (hwf : WF g) :
    ∀ (fuel : Nat) (l : List String) (st st' : TS),
      tsVisit g fuel l st = .ok st' →
      TSInv g st →
      (∀ x ∈ l, x ∈ g.nodes) →
      (∀ x ∈ st.visited, x ∈ g.nodes) →
      TSInv g st' ∧ st'.stack = st.stack ∧
        (∀ x ∈ st.visited, x ∈ st'.visited) ∧
        (∀ x ∈ l, x ∈ st'.visited) ∧
        (∀ x ∈ l, x ∉ st.stack) ∧
        (∀ x ∈ st'.visited, x ∈ g.nodes) := by
  intro fuel
  induction fuel with
  | zero =>
    intro l st st' h
    exact absurd h (by simp [tsVisit])
  | succ fuel ih =>
    intro l st st' h hinv hl hv
    cases l with
    | nil =>
      have hst : st = st' := by simpa [tsVisit] using h
      subst hst
      exact ⟨hinv, rfl, fun x hx => hx,
        fun x hx => absurd hx (List.not_mem_nil x),
        fun x hx => absurd hx (List.not_mem_nil x), hv⟩
    | cons x xs =>
      simp only [tsVisit] at h
      by_cases hxstk : x ∈ st.stack
      · rw [if_pos hxstk] at h
        simp at h
      · rw [if_neg hxstk] at h
        by_cases hxv : x ∈ st.visited
        · rw [if_pos hxv] at h
          obtain ⟨inv', hstk', hmono', hxs', hxsstk', hnodes'⟩ :=
            ih xs st st' h hinv (fun y hy => hl y (List.mem_cons_of_mem x hy))
              hv
          refine ⟨inv', hstk', hmono', ?_, ?_, hnodes'⟩
          · intro y hy
            rcases List.mem_cons.mp hy with hyx | hy
            · exact hmono' y (by rw [hyx]; exact hxv)
            · exact hxs' y hy
          · intro y hy
            rcases List.mem_cons.mp hy with hyx | hy
            · rw [hyx]; exact hxstk
            · exact hxsstk' y hy
        · rw [if_neg hxv] at h
          cases hsub : tsVisit g fuel (predsOf g x)
              ⟨x :: st.visited, x :: st.stack, st.results⟩ with
          | error e =>
            rw [hsub] at h
            simp at h
          | ok st2 =>
            rw [hsub] at h
            have hcont : tsVisit g fuel xs
                ⟨st2.visited, jsDel st2.stack x, st2.results ++ [x]⟩
                = .ok st' := h
            have hxnode : x ∈ g.nodes := hl x (List.mem_cons_self x xs)
            have hl1 : ∀ p ∈ predsOf g x, p ∈ g.nodes :=
              hwf.2.2.2.1 x hxnode
            have hv1 : ∀ y ∈ x :: st.visited, y ∈ g.nodes := by
              intro y hy
              rcases List.mem_cons.mp hy with hyx | hy
              · rw [hyx]; exact hxnode
              · exact hv y hy
            obtain ⟨inv2, hstk2, hmono2, hpreds2, hpredsstk2, hnodes2⟩ :=
              ih (predsOf g x) ⟨x :: st.visited, x :: st.stack, st.results⟩
                st2 hsub (tsInv_push g st x hxv hxstk hinv) hl1 hv1
            have hps : ∀ p ∈ predsOf g x, p ∉ st2.stack := by
              intro p hp
              rw [hstk2]
              exact hpredsstk2 p hp
            obtain ⟨inv3, hdel⟩ := tsInv_pop g st2 x st.stack hstk2 hxstk
              hpreds2 hps inv2
            obtain ⟨inv', hstk', hmono', hxs', hxsstk', hnodes'⟩ :=
              ih xs ⟨st2.visited, jsDel st2.stack x, st2.results ++ [x]⟩
                st' hcont inv3
                (fun y hy => hl y (List.mem_cons_of_mem x hy)) hnodes2
            have hxvis2 : x ∈ st2.visited :=
              hmono2 x (List.mem_cons_self x st.visited)
            refine ⟨inv', ?_, ?_, ?_, ?_, hnodes'⟩
            · rw [hstk']
              exact hdel
            · intro y hy
              exact hmono' y (hmono2 y (List.mem_cons_of_mem x hy))
            · intro y hy
              rcases List.mem_cons.mp hy with hyx | hy
              · exact hmono' y (by rw [hyx]; exact hxvis2)
              · exact hxs' y hy
            · intro y hy
              rcases List.mem_cons.mp hy with hyx | hy
              · rw [hyx]; exact hxstk
              · have := hxsstk' y hy
                rw [hdel] at this
                exact this

/-- Walking a chain down to a member: from the head of a chain there is a
chain segment ending at any member. -/
theorem chain_to_mem (g : Graph) (x : String) :
    ∀ (l : List String) (a : String),
      List.Chain' (fun u v => u ∈ predsOf g v) (a :: l) →
      x ∈ a :: l →
      a = x ∨ ∃ seg, List.Chain (fun u v => u ∈ predsOf g v) a (seg ++ [x]) := by
  intro l
  induction l with
  | nil =>
    intro a _ hx
    exact Or.inl (List.mem_singleton.mp hx).symm
  | cons b l ih =>
    intro a hchain hx
    rcases List.mem_cons.mp hx with hxa | hx
    · exact Or.inl hxa.symm
    · have hab : a ∈ predsOf g b := (List.chain'_cons.mp hchain).1
      have hbl : List.Chain' (fun u v => u ∈ predsOf g v) (b :: l) :=
        (List.chain'_cons.mp hchain).2
      rcases ih b hbl hx with hbx | ⟨seg, hseg⟩
      · refine Or.inr ⟨[], ?_⟩
        rw [← hbx]
        exact List.Chain.cons hab List.Chain.nil
      · exact Or.inr ⟨b :: seg, List.Chain.cons hab hseg⟩

/-- A worklist entry found on the stack closes a directed cycle: the stack
is a chain of edges from its top downward, and the entry has an edge into
the top. -/
theorem cycle_from_stack (g : Graph) (x t : String) (rest : List String)
    (hchain : List.Chain' (fun u v => u ∈ predsOf g v) (t :: rest))
    (hx : x ∈ t :: rest)
    (hxt : x ∈ predsOf g t) : HasCycle g := by
  rcases chain_to_mem g x rest t hchain hx with htx | ⟨seg, hseg⟩
  · exact ⟨x, [], by
      show List.Chain (fun u v => u ∈ predsOf g v) x ([] ++ [x])
      rw [htx] at hxt
      exact List.Chain.cons hxt List.Chain.nil⟩
  · exact ⟨x, t :: seg, List.Chain.cons hxt hseg⟩

/-- Master lemma for failing `tsVisit` runs: under the stack-chain and
worklist-link invariants, a `CycleException` implies a real directed
cycle. -/
theorem tsVisit_err (g : Graph) (hwf : WF g) :
    ∀ (fuel : Nat) (l : List String) (st : TS),
      TSInv g st →
      List.Chain' (fun u v => u ∈ predsOf g v) st.stack →
      (st.stack = [] ∨ ∃ t rest, st.stack = t :: rest ∧
        ∀ p ∈ l, p ∈ predsOf g t) →
      (∀ x ∈ l, x ∈ g.nodes) →
      (∀ x ∈ st.visited, x ∈ g.nodes) →
      tsVisit g fuel l st = .error .cycleException →
      HasCycle g := by
  intro fuel
  induction fuel with
  | zero =>
    intro l st _ _ _ _ _ h
    simp [tsVisit] at h
  | succ fuel ih =>
    intro l st hinv hchain hlink hl hv h
    cases l with
    | nil => simp [tsVisit] at h
    | cons x xs =>
      simp only [tsVisit] at h
      by_cases hxstk : x ∈ st.stack
      · rcases hlink with hnil | ⟨t, rest, hstk, hpl⟩
        · rw [hnil] at hxstk
          exact absurd hxstk (List.not_mem_nil x)
        · rw [hstk] at hxstk hchain
          exact cycle_from_stack g x t rest hchain hxstk
            (hpl x (List.mem_cons_self x xs))
      · rw [if_neg hxstk] at h
        by_cases hxv : x ∈ st.visited
        · rw [if_pos hxv] at h
          refine ih xs st hinv hchain ?_
            (fun y hy => hl y (List.mem_cons_of_mem x hy)) hv h
          rcases hlink with hnil | ⟨t, rest, hstk, hpl⟩
          · exact Or.inl hnil
          · exact Or.inr ⟨t, rest, hstk,
              fun p hp => hpl p (List.mem_cons_of_mem x hp)⟩
        · rw [if_neg hxv] at h
          have hxnode : x ∈ g.nodes := hl x (List.mem_cons_self x xs)
          have hl1 : ∀ p ∈ predsOf g x, p ∈ g.nodes :=
            hwf.2.2.2.1 x hxnode
          have hv1 : ∀ y ∈ x :: st.visited, y ∈ g.nodes := by
            intro y hy
            rcases List.mem_cons.mp hy with hyx | hy
            · rw [hyx]; exact hxnode
            · exact hv y hy
          have hchain1 : List.Chain' (fun u v => u ∈ predsOf g v)
              (x :: st.stack) := by
            rcases hlink with hnil | ⟨t, rest, hstk, hpl⟩
            · rw [hnil]
              exact List.chain'_singleton x
            · rw [hstk]
              exact List.chain'_cons.mpr
                ⟨hpl x (List.mem_cons_self x xs), by rw [← hstk]; exact hchain⟩
          cases hsub : tsVisit g fuel (predsOf g x)
              ⟨x :: st.visited, x :: st.stack, st.results⟩ with
          | error e =>
            rw [hsub] at h
            simp only [] at h
            have he : e = GErr.cycleException := by
              simpa using h
            refine ih (predsOf g x)
              ⟨x :: st.visited, x :: st.stack, st.results⟩
              (tsInv_push g st x hxv hxstk hinv) hchain1
              (Or.inr ⟨x, st.stack, rfl, fun p hp => hp⟩) hl1 hv1 ?_
            rw [hsub, he]
          | ok st2 =>
            rw [hsub] at h
            have hcont : tsVisit g fuel xs
                ⟨st2.visited, jsDel st2.stack x, st2.results ++ [x]⟩
                = .error .cycleException := h
            obtain ⟨inv2, hstk2, hmono2, hpreds2, hpredsstk2, hnodes2⟩ :=
              tsVisit_ok g hwf fuel (predsOf g x)
                ⟨x :: st.visited, x :: st.stack, st.results⟩ st2 hsub
                (tsInv_push g st x hxv hxstk hinv) hl1 hv1
            have hps : ∀ p ∈ predsOf g x, p ∉ st2.stack := by
              intro p hp
              rw [hstk2]
              exact hpredsstk2 p hp
            obtain ⟨inv3, hdel⟩ := tsInv_pop g st2 x st.stack hstk2 hxstk
              hpreds2 hps inv2
            refine ih xs ⟨st2.visited, jsDel st2.stack x, st2.results ++ [x]⟩
              inv3 ?_ ?_ (fun y hy => hl y (List.mem_cons_of_mem x hy))
              hnodes2 hcont
            · show List.Chain' (fun u v => u ∈ predsOf g v)
                (jsDel st2.stack x)
              rw [hdel]
              exact hchain
            · show jsDel st2.stack x = [] ∨ _
              rw [hdel]
              rcases hlink with hnil | ⟨t, rest, hstk, hpl⟩
              · exact Or.inl hnil
              · exact Or.inr ⟨t, rest, hstk,
                  fun p hp => hpl p (List.mem_cons_of_mem x hp)⟩

/-- Weakening the filter can only lower a filtered sum. -/
theorem filtered_sum_le (f : String → Nat) (p q : String → Bool)
    (himp : ∀ a, q a = true → p a = true) :
    ∀ L : List String,
      ((L.filter q).map f).sum ≤ ((L.filter p).map f).sum := by
  intro L
  induction L with
  | nil => simp
  | cons a L ih =>
    rw [List.filter_cons, List.filter_cons]
    by_cases hq : q a = true
    · rw [if_pos hq, if_pos (himp a hq)]
      simp only [List.map_cons, List.sum_cons]
      omega
    · rw [if_neg hq]
      by_cases hp : p a = true
      · rw [if_pos hp]
        simp only [List.map_cons, List.sum_cons]
        omega
      · rw [if_neg hp]
        exact ih

/-- `tsWork` shrinks (weakly) as `visited` grows. -/
theorem tsWork_mono (g : Graph) (v v' : List String)
    (hsub : ∀ y ∈ v, y ∈ v') : tsWork g v' ≤ tsWork g v := by
  unfold tsWork
  apply filtered_sum_le
  intro a ha
  simp only [decide_eq_true_eq] at ha ⊢
  exact fun hav => ha (hsub a hav)

/-- Visiting a fresh node pays its worklist out of `tsWork`. -/
theorem filtered_sum_step (f : String → Nat) (visited : List String)
    (x : String) (hxv : x ∉ visited) :
    ∀ L : List String, x ∈ L →
      f x + ((L.filter (fun y => decide (y ∉ x :: visited))).map f).sum ≤
        ((L.filter (fun y => decide (y ∉ visited))).map f).sum := by
  intro L
  induction L with
  | nil => intro hx; exact absurd hx (List.not_mem_nil x)
  | cons a L ih =>
    intro hx
    rw [List.filter_cons, List.filter_cons]
    by_cases hax : a = x
    · rw [if_neg (by simp [hax]), if_pos (by simp [hax, hxv])]
      simp only [List.map_cons, List.sum_cons, hax]
      have := filtered_sum_le f (fun y => decide (y ∉ visited))
        (fun y => decide (y ∉ x :: visited))
        (fun b hb => by
          simp only [decide_eq_true_eq] at hb ⊢
          exact fun hbv => hb (List.mem_cons_of_mem x hbv)) L
      omega
    · have hx' : x ∈ L := by
        rcases List.mem_cons.mp hx with h | h
        · exact absurd h.symm hax
        · exact h
      have ih2 := ih hx'
      by_cases hav : a ∈ visited
      · rw [if_neg (by simp [hav]), if_neg (by
          simp only [decide_eq_true_eq, Decidable.not_not]
          exact hav)]
        exact ih2
      · rw [if_pos (by
            simp only [decide_eq_true_eq]
            intro hmem
            rcases List.mem_cons.mp hmem with h | h
            · exact hax h
            · exact hav h),
          if_pos (by simp [hav])]
        simp only [List.map_cons, List.sum_cons]
        omega

/-- Visiting a fresh node strictly decreases the remaining `tsWork` by at
least its own cost. -/
theorem tsWork_step (g : Graph) (x : String) (visited : List String)
    (hx : x ∈ g.nodes) (hxv : x ∉ visited) :
    1 + (predsOf g x).length + tsWork g (x :: visited) ≤
      tsWork g visited := by
  unfold tsWork
  exact filtered_sum_step (fun y => 1 + (predsOf g y).length) visited x hxv
    g.nodes hx

/-- With the fuel bound of `tsFuel`, `tsVisit` never reports fuel
exhaustion: its only error is the `CycleException`. -/
theorem tsVisit_no_fuel_err (g : Graph) (hwf : WF g) :
    ∀ (fuel : Nat) (l : List String) (st : TS),
      TSInv g st →
      (∀ x ∈ l, x ∈ g.nodes) →
      (∀ x ∈ st.visited, x ∈ g.nodes) →
      l.length + tsWork g st.visited < fuel →
      ∀ msg, tsVisit g fuel l st ≠ .error (.error msg) := by
  intro fuel
  induction fuel with
  | zero =>
    intro l st _ _ _ hb msg
    exact absurd hb (by omega)
  | succ fuel ih =>
    intro l st hinv hl hv hb msg
    cases l with
    | nil => simp [tsVisit]
    | cons x xs =>
      have hlen : (x :: xs).length = xs.length + 1 := rfl
      simp only [tsVisit]
      by_cases hxstk : x ∈ st.stack
      · rw [if_pos hxstk]
        simp
      · rw [if_neg hxstk]
        by_cases hxv : x ∈ st.visited
        · rw [if_pos hxv]
          exact ih xs st hinv
            (fun y hy => hl y (List.mem_cons_of_mem x hy)) hv
            (by omega) msg
        · rw [if_neg hxv]
          have hxnode : x ∈ g.nodes := hl x (List.mem_cons_self x xs)
          have hstep := tsWork_step g x st.visited hxnode hxv
          have hl1 : ∀ p ∈ predsOf g x, p ∈ g.nodes :=
            hwf.2.2.2.1 x hxnode
          have hv1 : ∀ y ∈ x :: st.visited, y ∈ g.nodes := by
            intro y hy
            rcases List.mem_cons.mp hy with hyx | hy
            · rw [hyx]; exact hxnode
            · exact hv y hy
          cases hsub : tsVisit g fuel (predsOf g x)
              ⟨x :: st.visited, x :: st.stack, st.results⟩ with
          | error e =>
            intro hcontra
            have he : e = GErr.error msg := by simpa using hcontra
            exact ih (predsOf g x)
              ⟨x :: st.visited, x :: st.stack, st.results⟩
              (tsInv_push g st x hxv hxstk hinv) hl1 hv1
              (by
                show (predsOf g x).length + tsWork g (x :: st.visited) < fuel
                omega) msg (by rw [hsub, he])
          | ok st2 =>
            intro hcontra
            have hcont : tsVisit g fuel xs
                ⟨st2.visited, jsDel st2.stack x, st2.results ++ [x]⟩
                = .error (.error msg) := hcontra
            obtain ⟨inv2, hstk2, hmono2, hpreds2, hpredsstk2, hnodes2⟩ :=
              tsVisit_ok g hwf fuel (predsOf g x)
                ⟨x :: st.visited, x :: st.stack, st.results⟩ st2 hsub
                (tsInv_push g st x hxv hxstk hinv) hl1 hv1
            have hps : ∀ p ∈ predsOf g x, p ∉ st2.stack := by
              intro p hp
              rw [hstk2]
              exact hpredsstk2 p hp
            obtain ⟨inv3, hdel⟩ := tsInv_pop g st2 x st.stack hstk2 hxstk
              hpreds2 hps inv2
            have hwork2 : tsWork g st2.visited ≤
                tsWork g (x :: st.visited) :=
              tsWork_mono g (x :: st.visited) st2.visited hmono2
            exact ih xs ⟨st2.visited, jsDel st2.stack x, st2.results ++ [x]⟩
              inv3 (fun y hy => hl y (List.mem_cons_of_mem x hy)) hnodes2
              (by
                show xs.length + tsWork g st2.visited < fuel
                omega) msg hcont

/-- A node that is not a sink has a successor (its out-edge map is
nonempty, and the consistency invariant turns that into a recorded
edge). -/
theorem succ_of_not_sink (g : Graph) (hwf : WF g) (v : String)
    (hv : v ∈ g.nodes) (hns : v ∉ g.sinks) :
    ∃ w ∈ g.nodes, v ∈ predsOf g w := by
  have hfilter : ¬ (((alGet g.outEdges_ v).getD []).isEmpty = true) := by
    intro hemp
    exact hns (by
      unfold Graph.sinks
      exact List.mem_filter.mpr ⟨hv, by simpa using hemp⟩)
  have hiff := hwf.2.2.2.2.2.2 v hv
  by_contra hno
  push_neg at hno
  exact hfilter (hiff.mpr (fun w hw => hno w hw))

/-- From any member of a forward chain there is a chain segment to the
chain's last element. -/
theorem chain_mem_to_last (g : Graph) (w v : String) :
    ∀ (l : List String) (a : String),
      List.Chain' (fun x y => x ∈ predsOf g y) (a :: l) →
      w ∈ a :: l →
      (a :: l).getLast? = some v →
      w = v ∨ ∃ seg, List.Chain (fun x y => x ∈ predsOf g y) w
        (seg ++ [v]) := by
  intro l
  induction l with
  | nil =>
    intro a _ hw hlast
    have hav : a = v := by simpa using hlast
    exact Or.inl (by rw [← hav]; exact List.mem_singleton.mp hw)
  | cons b l ih =>
    intro a hchain hw hlast
    rw [List.getLast?_cons_cons] at hlast
    rcases List.mem_cons.mp hw with hwa | hw
    · right
      have hchainA : List.Chain (fun x y => x ∈ predsOf g y) a (b :: l) :=
        hchain
      obtain ⟨seg, hseg⟩ : ∃ seg, b :: l = seg ++ [v] := by
        have hne : b :: l ≠ [] := List.cons_ne_nil b l
        have := List.getLast?_eq_getLast (b :: l) hne
        rw [this] at hlast
        have hlastv : (b :: l).getLast hne = v := by
          simpa using hlast
        refine ⟨(b :: l).dropLast, ?_⟩
        rw [← hlastv]
        exact (List.dropLast_append_getLast hne).symm
      exact ⟨seg, by rw [hwa, ← hseg]; exact hchainA⟩
    · exact ih b (List.chain'_cons.mp hchain).2 hw hlast

/-- A successor edge back into the walk closes a directed cycle. -/
theorem cycle_of_rejoin (g : Graph) (walk : List String) (v w : String)
    (hchain : List.Chain' (fun x y => x ∈ predsOf g y) (walk ++ [v]))
    (hvw : v ∈ predsOf g w)
    (hw : w ∈ walk ++ [v]) : HasCycle g := by
  have hlast : (walk ++ [v]).getLast? = some v := List.getLast?_concat walk
  cases hwalk : walk ++ [v] with
  | nil => simp at hwalk
  | cons a rest =>
    rw [hwalk] at hchain hw hlast
    rcases chain_mem_to_last g w v rest a hchain hw hlast with hwv | ⟨seg, hseg⟩
    · refine ⟨v, [], ?_⟩
      show List.Chain (fun x y => x ∈ predsOf g y) v ([] ++ [v])
      rw [hwv] at hvw
      exact List.Chain.cons hvw List.Chain.nil
    · refine ⟨w, seg ++ [v], ?_⟩
      show List.Chain' (fun x y => x ∈ predsOf g y)
        (w :: (seg ++ [v] ++ [w]))
      have h1 : List.Chain' (fun x y => x ∈ predsOf g y)
          (w :: (seg ++ [v])) := hseg
      have h2 : w :: (seg ++ [v] ++ [w]) =
          (w :: (seg ++ [v])) ++ [w] := by simp
      rw [h2]
      refine List.chain'_append.mpr ⟨h1, List.chain'_singleton w, ?_⟩
      intro a2 ha2 b2 hb2
      have ha2v : a2 = v := by
        have hgl : (w :: (seg ++ [v])).getLast? = some v := by
          have h3 : w :: (seg ++ [v]) = (w :: seg) ++ [v] := by simp
          rw [h3]
          exact List.getLast?_concat (w :: seg)
        rw [hgl] at ha2
        exact (by simpa using ha2 : v = a2).symm
      have hb2w : w = b2 := by simpa using hb2
      rw [ha2v, ← hb2w]
      exact hvw

/-- Pigeonhole for duplicate-free lists: a nodup list inside `L` at least
as long as `L` contains every member of `L`. -/
theorem mem_of_nodup_subset_length (l L : List String)
    (hnd : l.Nodup) (hsub : ∀ x ∈ l, x ∈ L) (hlen : L.length ≤ l.length) :
    ∀ x ∈ L, x ∈ l := by
  have hsp : l.Subperm L := List.subperm_of_subset hnd hsub
  have hperm : l.Perm L := hsp.perm_of_length_le hlen
  intro x hx
  exact hperm.mem_iff.mpr hx

/-- In a well-formed acyclic graph every node has a forward chain to a
sink (walk forward greedily; a repeated node would close a cycle, and the
walk cannot outgrow the node set). -/
theorem reach_sink (g : Graph) (hwf : WF g) (hacyc : ¬ HasCycle g) :
    ∀ (k : Nat) (v : String) (walk : List String),
      v ∈ g.nodes →
      (walk ++ [v]).Nodup →
      (∀ u ∈ walk, u ∈ g.nodes) →
      List.Chain' (fun x y => x ∈ predsOf g y) (walk ++ [v]) →
      g.nodes.length ≤ k + walk.length + 1 →
      ∃ L s, List.Chain (fun x y => x ∈ predsOf g y) v L ∧
        (v :: L).getLast? = some s ∧ s ∈ g.sinks := by
  intro k
  induction k with
  | zero =>
    intro v walk hv hnd hwn hchain hbound
    by_cases hsink : v ∈ g.sinks
    · exact ⟨[], v, List.Chain.nil, rfl, hsink⟩
    · obtain ⟨w, hwnodes, hvw⟩ := succ_of_not_sink g hwf v hv hsink
      have hsub : ∀ x ∈ walk ++ [v], x ∈ g.nodes := by
        intro x hx
        rcases List.mem_append.mp hx with h | h
        · exact hwn x h
        · rw [List.mem_singleton.mp h]; exact hv
      have hlen : g.nodes.length ≤ (walk ++ [v]).length := by
        simp only [List.length_append, List.length_singleton]
        omega
      have hwin : w ∈ walk ++ [v] :=
        mem_of_nodup_subset_length (walk ++ [v]) g.nodes hnd hsub hlen
          w hwnodes
      exact absurd (cycle_of_rejoin g walk v w hchain hvw hwin) hacyc
  | succ k ih =>
    intro v walk hv hnd hwn hchain hbound
    by_cases hsink : v ∈ g.sinks
    · exact ⟨[], v, List.Chain.nil, rfl, hsink⟩
    · obtain ⟨w, hwnodes, hvw⟩ := succ_of_not_sink g hwf v hv hsink
      by_cases hwin : w ∈ walk ++ [v]
      · exact absurd (cycle_of_rejoin g walk v w hchain hvw hwin) hacyc
      · have hsub : ∀ u ∈ walk ++ [v], u ∈ g.nodes := by
          intro u hu
          rcases List.mem_append.mp hu with h | h
          · exact hwn u h
          · rw [List.mem_singleton.mp h]; exact hv
        obtain ⟨L, s, hLchain, hLlast, hssink⟩ := ih w (walk ++ [v]) hwnodes
          (by
            rw [List.nodup_append]
            exact ⟨hnd, List.nodup_singleton w,
              fun a ha hb => hwin (by
                rw [← List.mem_singleton.mp hb]; exact ha)⟩)
          hsub
          (by
            refine List.chain'_append.mpr
              ⟨hchain, List.chain'_singleton w, ?_⟩
            intro a2 ha2 b2 hb2
            have ha2v : a2 = v := by
              rw [List.getLast?_concat walk] at ha2
              exact (by simpa using ha2 : v = a2).symm
            have hb2w : w = b2 := by simpa using hb2
            rw [ha2v, ← hb2w]
            exact hvw)
          (by
            simp only [List.length_append, List.length_singleton]
            omega)
        refine ⟨w :: L, s, List.Chain.cons hvw hLchain, ?_, hssink⟩
        rw [List.getLast?_cons_cons]
        exact hLlast

/-- Ancestors (along recorded edges) of closed nodes are closed: climbing a
forward chain whose endpoint is closed closes its start. -/
theorem climb_results (g : Graph) (res : List String)
    (hB : ∀ pre y post, res = pre ++ y :: post →
      ∀ p ∈ predsOf g y, p ∈ pre) :
    ∀ (L : List String) (v : String),
      List.Chain (fun x y => x ∈ predsOf g y) v L →
      (∀ s, (v :: L).getLast? = some s → s ∈ res) →
      v ∈ res := by
  intro L
  induction L with
  | nil =>
    intro v _ hlast
    exact hlast v rfl
  | cons w L ih =>
    intro v hchain hlast
    have hvw : v ∈ predsOf g w := (List.chain_cons.mp hchain).1
    have hw : w ∈ res := ih w (List.chain_cons.mp hchain).2
      (fun s hs => hlast s (by rw [List.getLast?_cons_cons]; exact hs))
    exact bClosed_mem g res hB w v hw hvw

/-- Along a forward chain inside a closed-before-ordered list, indices
strictly increase from the start to the last element. -/
theorem chain_indexOf_lt (g : Graph) (res : List String) (hnd : res.Nodup)
    (hB : ∀ pre y post, res = pre ++ y :: post →
      ∀ p ∈ predsOf g y, p ∈ pre) :
    ∀ (L : List String) (v : String), L ≠ [] →
      List.Chain (fun x y => x ∈ predsOf g y) v L →
      (∀ x ∈ L, x ∈ res) →
      ∀ s, (v :: L).getLast? = some s →
        res.indexOf v < res.indexOf s := by
  intro L
  induction L with
  | nil =>
    intro v h
    exact absurd rfl h
  | cons w L ih =>
    intro v _ hchain hLres s hs
    have hvw : v ∈ predsOf g w := (List.chain_cons.mp hchain).1
    have hw : w ∈ res := hLres w (List.mem_cons_self w L)
    have h1 : res.indexOf v < res.indexOf w :=
      bClosed_indexOf g res hnd hB w v hw hvw
    cases L with
    | nil =>
      have hsw : w = s := by simpa using hs
      rw [← hsw]
      exact h1
    | cons u L2 =>
      rw [List.getLast?_cons_cons] at hs
      have h2 := ih w (by simp) (List.chain_cons.mp hchain).2
        (fun x hx => hLres x (List.mem_cons_of_mem w hx)) s hs
      omega

/-- The initial `topsort` state satisfies the visit invariant. -/
theorem tsInv_init (g : Graph) : TSInv g ⟨[], [], []⟩ := by
  refine ⟨?_, ?_, List.nodup_nil, List.nodup_nil, ?_⟩
  · intro x
    simp
  · intro x h
    exact absurd h.1 (List.not_mem_nil x)
  · intro pre y post h
    exact absurd h (by simp)

/-- `sinks()` is a sublist of `nodes()`. -/
theorem sinks_subset (g : Graph) : ∀ x ∈ g.sinks, x ∈ g.nodes := by
  intro x hx
  unfold Graph.sinks at hx
  exact (List.mem_filter.mp hx).1

/-- Common facts about a successful top-level `tsVisit` run from the
sinks. -/
theorem topsort_ok_analysis (g : Graph) (hwf : WF g) (st' : TS)
    (hrun : tsVisit g (tsFuel g) g.sinks ⟨[], [], []⟩ = .ok st') :
    TSInv g st' ∧ st'.stack = [] ∧ (∀ x ∈ g.sinks, x ∈ st'.visited) ∧
      (∀ x ∈ st'.visited, x ∈ g.nodes) := by
  obtain ⟨inv', hstk', _, hsv, _, hnodes'⟩ :=
    tsVisit_ok g hwf (tsFuel g) g.sinks ⟨[], [], []⟩ st' hrun
      (tsInv_init g) (sinks_subset g)
      (fun x hx => absurd hx (List.not_mem_nil x))
  exact ⟨inv', hstk', hsv, hnodes'⟩

/-- A step target has a predecessor entry and is therefore a node. -/
theorem target_mem_nodes (g : Graph) (hwf : WF g) (a b : String)
    (h : a ∈ predsOf g b) : b ∈ g.nodes := by
  unfold predsOf Graph.predecessors at h
  cases hget : alGet g.preds_ b with
  | none =>
    rw [hget] at h
    simp at h
  | some m =>
    apply hwf.2.2.1
    rw [mem_alKeys_iff]
    simp [alHas, hget]

/-- Every element of a forward chain is a step target, hence a node. -/
theorem chain_targets_mem (g : Graph) (hwf : WF g) :
    ∀ (L : List String) (v : String),
      List.Chain (fun x y => x ∈ predsOf g y) v L →
      ∀ x ∈ L, x ∈ g.nodes := by
  intro L
  induction L with
  | nil =>
    intro v _ x hx
    exact absurd hx (List.not_mem_nil x)
  | cons b l ih =>
    intro v hchain x hx
    rcases List.mem_cons.mp hx with hxb | hx
    · rw [hxb]
      exact target_mem_nodes g hwf v b (List.chain_cons.mp hchain).1
    · exact ih b (List.chain_cons.mp hchain).2 x hx

/-- In a well-formed acyclic graph, a successful run from the sinks closes
every node (each node has a forward chain to a sink and closure climbs the
chain backwards). -/
theorem acyclic_all_closed (g : Graph) (hwf : WF g) (hacyc : ¬ HasCycle g)
    (st' : TS) (hinv : TSInv g st') (hstk : st'.stack = [])
    (hsinks : ∀ x ∈ g.sinks, x ∈ st'.visited) :
    ∀ v ∈ g.nodes, v ∈ st'.results := by
  intro v hv
  obtain ⟨L, s, hchain, hlast, hsink⟩ := reach_sink g hwf hacyc
    g.nodes.length v [] hv (by simp) (by simp)
    (List.chain'_singleton v) (by simp)
  have hsres : s ∈ st'.results := by
    have hvis := hsinks s hsink
    rcases (hinv.1 s).mp hvis with h | h
    · exact h
    · rw [hstk] at h
      exact absurd h (List.not_mem_nil s)
  exact climb_results g st'.results hinv.2.2.2.2 L v hchain
    (fun s2 hs2 => by
      rw [hlast] at hs2
      rw [← Option.some_inj.mp hs2]
      exact hsres)

/-- C4: on every well-formed graph, `topsort` returns — when the graph is
acyclic — a permutation of the nodes in which the source of every stored
edge precedes its target, and throws the distinguished `CycleException`
whenever the graph has a directed cycle; on the `setPath(["b","c","a"])`
path graph it returns exactly `["b","c","a"]`. -/
theorem C4_topsort_total_order_and_cycle_detection (g : Graph)
    (hwf : WF g) :
    (¬ HasCycle g → ∃ l, topsortT g = .ok l ∧ l.Perm g.nodes ∧
        ∀ eo ∈ g.edges, l.indexOf eo.v < l.indexOf eo.w) ∧
      (HasCycle g → topsortT g = .error .cycleException) ∧
      topsortT pathGraphBCA = .ok ["b", "c", "a"] := by
  have hbound : g.sinks.length +
      tsWork g ((⟨[], [], []⟩ : TS)).visited < tsFuel g := by
    show g.sinks.length + tsWork g [] < tsFuel g
    unfold tsFuel
    omega
  refine ⟨?_, ?_, by decide⟩
  · intro hacyc
    cases hrun : tsVisit g (tsFuel g) g.sinks ⟨[], [], []⟩ with
    | error e =>
      cases e with
      | cycleException =>
        exact absurd (tsVisit_err g hwf (tsFuel g) g.sinks ⟨[], [], []⟩
          (tsInv_init g) List.chain'_nil (Or.inl rfl) (sinks_subset g)
          (fun x hx => absurd hx (List.not_mem_nil x)) hrun) hacyc
      | error msg =>
        exact absurd hrun (tsVisit_no_fuel_err g hwf (tsFuel g) g.sinks
          ⟨[], [], []⟩ (tsInv_init g) (sinks_subset g)
          (fun x hx => absurd hx (List.not_mem_nil x)) hbound msg)
    | ok st' =>
      obtain ⟨inv', hstk', hsv, hnodes'⟩ := topsort_ok_analysis g hwf st' hrun
      have hall : ∀ v ∈ g.nodes, v ∈ st'.results :=
        acyclic_all_closed g hwf hacyc st' inv' hstk' hsv
      have hrsub : ∀ x ∈ st'.results, x ∈ g.nodes :=
        fun x hx => hnodes' x ((inv'.1 x).mpr (Or.inl hx))
      have hvr : ∀ x, x ∈ st'.visited ↔ x ∈ st'.results := by
        intro x
        rw [inv'.1 x, hstk']
        simp
      have hndr : st'.results.Nodup := inv'.2.2.2.1
      have hndv : st'.visited.Nodup := inv'.2.2.1
      have hndn : g.nodes.Nodup := hwf.1
      have hpermrn : st'.results.Perm g.nodes :=
        (List.perm_ext_iff_of_nodup hndr hndn).mpr
          (fun a => ⟨fun h => hrsub a h, fun h => hall a h⟩)
      have hpermvn : st'.visited.Perm g.nodes :=
        (List.perm_ext_iff_of_nodup hndv hndn).mpr
          (fun a => by
            rw [hvr a]
            exact ⟨fun h => hrsub a h, fun h => hall a h⟩)
      have hlencheck : (st'.visited.length : Int) = g.nodeCount_ := by
        rw [hwf.2.1, hpermvn.length_eq]
      refine ⟨st'.results, ?_, hpermrn, ?_⟩
      · unfold topsortT
        rw [hrun]
        show (if (st'.visited.length : Int) = g.nodeCount_ then
          Except.ok st'.results else Except.error GErr.cycleException)
            = Except.ok st'.results
        rw [if_pos hlencheck]
      · intro eo heo
        obtain ⟨hv2, hw2, hvw2⟩ := hwf.2.2.2.2.1 eo heo
        exact bClosed_indexOf g st'.results hndr inv'.2.2.2.2 eo.w eo.v
          (hall eo.w hw2) hvw2
  · intro hcyc
    cases hrun : tsVisit g (tsFuel g) g.sinks ⟨[], [], []⟩ with
    | error e =>
      cases e with
      | cycleException =>
        unfold topsortT
        rw [hrun]
      | error msg =>
        exact absurd hrun (tsVisit_no_fuel_err g hwf (tsFuel g) g.sinks
          ⟨[], [], []⟩ (tsInv_init g) (sinks_subset g)
          (fun x hx => absurd hx (List.not_mem_nil x)) hbound msg)
    | ok st' =>
      unfold topsortT
      rw [hrun]
      show (if (st'.visited.length : Int) = g.nodeCount_ then
        Except.ok st'.results else Except.error GErr.cycleException)
          = Except.error GErr.cycleException
      by_cases hcheck : (st'.visited.length : Int) = g.nodeCount_
      · exfalso
        obtain ⟨inv', hstk', hsv, hnodes'⟩ :=
          topsort_ok_analysis g hwf st' hrun
        have hndv : st'.visited.Nodup := inv'.2.2.1
        have hlen : g.nodes.length ≤ st'.visited.length := by
          have h2 : (st'.visited.length : Int) = (g.nodes.length : Int) := by
            rw [hcheck, hwf.2.1]
          omega
        have hallv : ∀ x ∈ g.nodes, x ∈ st'.visited :=
          mem_of_nodup_subset_length st'.visited g.nodes hndv hnodes' hlen
        have hvr : ∀ x, x ∈ st'.visited ↔ x ∈ st'.results := by
          intro x
          rw [inv'.1 x, hstk']
          simp
        obtain ⟨v, lc, hchain⟩ := hcyc
        have htargets := chain_targets_mem g hwf (lc ++ [v]) v hchain
        have hvnode : v ∈ g.nodes := htargets v
          (List.mem_append.mpr (Or.inr (List.mem_singleton_self v)))
        have hLres : ∀ x ∈ lc ++ [v], x ∈ st'.results :=
          fun x hx => (hvr x).mp (hallv x (htargets x hx))
        have hgl : (v :: (lc ++ [v])).getLast? = some v := by
          show ((v :: lc) ++ [v]).getLast? = some v
          exact List.getLast?_concat (v :: lc)
        have := chain_indexOf_lt g st'.results inv'.2.2.2.1 inv'.2.2.2.2
          (lc ++ [v]) v (by simp) hchain hLres v hgl
        omega
      · rw [if_neg hcheck]

/-- Closed instance of C4 at the `setPath(["b","c","a"])` scenario graph,
which is well formed. -/
theorem C4_topsort_total_order_and_cycle_detection_witness :
    WF pathGraphBCA ∧
      ((¬ HasCycle pathGraphBCA → ∃ l, topsortT pathGraphBCA = .ok l ∧
          l.Perm pathGraphBCA.nodes ∧
          ∀ eo ∈ pathGraphBCA.edges, l.indexOf eo.v < l.indexOf eo.w) ∧
        (HasCycle pathGraphBCA →
          topsortT pathGraphBCA = .error .cycleException) ∧
        topsortT pathGraphBCA = .ok ["b", "c", "a"]) :=
  ⟨by decide,
    C4_topsort_total_order_and_cycle_detection pathGraphBCA (by decide)⟩

end TsGraphlib
